import Mathlib

/-!
# Verification of the LSP transport core of `elm-lsp-rust`'s test scripts

This file shallowly embeds the framing / correlation / timing logic shared by the
repository's Python scripts (`benchmark.py`, `test_refs.py`, `test_workspace.py`, ...):

* `encode_lsp` — `Content-Length`-framed encoding of a JSON message (benchmark.py:155-157);
* `read_responses` — the incremental decode loop over the child process's stdout
  (benchmark.py:159-183), including the `re.search`-based header matching;
* `wait_for_response` — id-correlated waiting with a timeout (test_refs.py:45-54);
* `print_results` — the per-operation statistics reduction (benchmark.py:335-348).

The scripts run the streams in text mode (`text=True`), so buffers are modelled as
`List Char` and all lengths are character counts, exactly as in the Python code.

The Python standard library's `json.dumps` / `json.loads` (with their default options:
compact `", "`/`": "` separators and `ensure_ascii=True`) are modelled by `dumps` /
`loads` over the inductive `JValue`.  Modelling boundaries, noted where relevant:
JSON numbers are modelled as integers (the protocol messages in the scripts use only
integers; floating point is outside the scope of this embedding), and strings are
sequences of unicode scalar values (Lean `Char`), so lone surrogate escapes — which
CPython's `json.loads` tolerates — are rejected by the model.
-/

/-! ## Characters and decimal digits -/

/-- The double-quote character. -/
def qmark : Char := Char.ofNat 34

/-- The backslash character. -/
def bslash : Char := '\\'

/-- The opening curly brace character. -/
def lbrace : Char := Char.ofNat 123

/-- The closing curly brace character. -/
def rbrace : Char := Char.ofNat 125

/-- Decimal digit test, as matched by the regex class `\d` on ASCII input. -/
def isDigitC (c : Char) : Bool := 47 < c.toNat && c.toNat < 58

/-- The decimal digit character for `d` (`d < 10`). -/
def digitChar : Nat → Char
  | 0 => '0' | 1 => '1' | 2 => '2' | 3 => '3' | 4 => '4'
  | 5 => '5' | 6 => '6' | 7 => '7' | 8 => '8' | _ => '9'

/-- Numeric value of a decimal digit character. -/
def charDigit (c : Char) : Nat := c.toNat - 48

/-- Value of a decimal digit string, as computed by Python's `int()`. -/
def parseNatD (ds : List Char) : Nat := ds.foldl (fun a c => a * 10 + charDigit c) 0

/-- Decimal rendering of a natural number (worker with fuel; `fuel > n` suffices). -/
def natDigitsCore : Nat → Nat → List Char → List Char
  | 0, _, acc => acc
  | fuel + 1, n, acc =>
    if n < 10 then digitChar n :: acc
    else natDigitsCore fuel (n / 10) (digitChar (n % 10) :: acc)

/-- Decimal rendering of a natural number, as produced by Python's `str()`. -/
def natDigits (n : Nat) : List Char := natDigitsCore (n + 1) n []

theorem charDigit_digitChar {d : Nat} (h : d < 10) : charDigit (digitChar d) = d := by
  interval_cases d <;> rfl

theorem isDigitC_digitChar {d : Nat} (h : d < 10) : isDigitC (digitChar d) = true := by
  interval_cases d <;> rfl

theorem natDigitsCore_acc (fuel : Nat) : ∀ n acc,
    natDigitsCore fuel n acc = natDigitsCore fuel n [] ++ acc := by
  induction fuel with
  | zero => intro n acc; simp [natDigitsCore]
  | succ fuel ih =>
    intro n acc
    by_cases h : n < 10
    · simp [natDigitsCore, h]
    · simp only [natDigitsCore, if_neg h]
      rw [ih (n / 10) (digitChar (n % 10) :: acc), ih (n / 10) [digitChar (n % 10)]]
      simp

theorem parseNatD_snoc (ds : List Char) (c : Char) :
    parseNatD (ds ++ [c]) = parseNatD ds * 10 + charDigit c := by
  simp [parseNatD, List.foldl_append]

theorem parseNatD_natDigitsCore : ∀ fuel n, n < fuel →
    parseNatD (natDigitsCore fuel n []) = n := by
  intro fuel
  induction fuel with
  | zero => omega
  | succ fuel ih =>
    intro n hn
    by_cases h : n < 10
    · simp [natDigitsCore, h, parseNatD, charDigit_digitChar h]
    · have hd : n / 10 < fuel := by
        have h1 : n / 10 < n := Nat.div_lt_self (by omega) (by omega)
        omega
      simp only [natDigitsCore, if_neg h]
      rw [natDigitsCore_acc, parseNatD_snoc, ih _ hd, charDigit_digitChar (by omega)]
      omega

/-- `int(str(n)) = n`: the decimal digits of `n` evaluate back to `n`. -/
theorem parseNatD_natDigits (n : Nat) : parseNatD (natDigits n) = n :=
  parseNatD_natDigitsCore (n + 1) n (by omega)

theorem natDigitsCore_all_digits : ∀ fuel n, ∀ c ∈ natDigitsCore fuel n [], isDigitC c := by
  intro fuel
  induction fuel with
  | zero => intro n c hc; simp [natDigitsCore] at hc
  | succ fuel ih =>
    intro n c hc
    by_cases h : n < 10
    · simp [natDigitsCore, h] at hc
      simp [hc, isDigitC_digitChar h]
    · simp only [natDigitsCore, if_neg h] at hc
      rw [natDigitsCore_acc] at hc
      rcases List.mem_append.1 hc with h1 | h1
      · exact ih _ _ h1
      · simp at h1
        simp [h1, isDigitC_digitChar (Nat.mod_lt _ (by omega))]

/-- All characters of `str(n)` are decimal digits. -/
theorem natDigits_all_digits (n : Nat) : ∀ c ∈ natDigits n, isDigitC c :=
  natDigitsCore_all_digits (n + 1) n

theorem natDigits_ne_nil (n : Nat) : natDigits n ≠ [] := by
  unfold natDigits natDigitsCore
  by_cases h : n < 10 <;> simp [h]
  rw [natDigitsCore_acc]
  simp

/-! ## JSON values

`JValue` models the JSON-serializable Python values exchanged by the scripts.
Numbers are integers (see the header note on floats).  Objects are modelled as
association lists in insertion order, mirroring Python `dict`s (which, as built by
the scripts or by `json.loads`, carry unique keys; on duplicate keys `jget` below
uses last-wins semantics, as a Python `dict` built by `json.loads` would).
The element and entry lists are the mutual inductives `JArr` / `JObj` so that every
function below is structural and computes by definitional reduction. -/

mutual
inductive JValue where
  | null
  | bool (b : Bool)
  | int (n : Int)
  | str (s : List Char)
  | arr (xs : JArr)
  | obj (kvs : JObj)
deriving DecidableEq
inductive JArr where
  | nil
  | cons (hd : JValue) (tl : JArr)
deriving DecidableEq
inductive JObj where
  | nil
  | cons (k : List Char) (v : JValue) (tl : JObj)
deriving DecidableEq
end

/-! ## `json.dumps` (default options) -/

/-- Lowercase hexadecimal digit for `d < 16`, as emitted by `json.dumps` in
`\uXXXX` escapes. -/
def hexDigit : Nat → Char
  | 0 => '0' | 1 => '1' | 2 => '2' | 3 => '3' | 4 => '4'
  | 5 => '5' | 6 => '6' | 7 => '7' | 8 => '8' | 9 => '9'
  | 10 => 'a' | 11 => 'b' | 12 => 'c' | 13 => 'd' | 14 => 'e' | _ => 'f'

/-- Four-digit lowercase hexadecimal rendering of `n < 0x10000`. -/
def hex4 (n : Nat) : List Char :=
  [hexDigit (n / 4096 % 16), hexDigit (n / 256 % 16), hexDigit (n / 16 % 16), hexDigit (n % 16)]

/-- How `json.dumps` (with `ensure_ascii=True`, the default) renders one character
inside a string literal: the two-character short escapes for `"`, `\`, and the five
control characters with names; all other characters outside printable ASCII
(`0x20..0x7e`) as `\uXXXX`, using a surrogate pair when the scalar value exceeds
`0xFFFF`; printable ASCII characters stand for themselves. -/
def escChar (c : Char) : List Char :=
  if c = qmark then [bslash, qmark]
  else if c = bslash then [bslash, bslash]
  else if c = '\n' then [bslash, 'n']
  else if c = '\r' then [bslash, 'r']
  else if c = '\t' then [bslash, 't']
  else if c.toNat = 8 then [bslash, 'b']
  else if c.toNat = 12 then [bslash, 'f']
  else if 32 ≤ c.toNat ∧ c.toNat ≤ 126 then [c]
  else if c.toNat < 65536 then bslash :: 'u' :: hex4 c.toNat
  else
    bslash :: 'u' :: hex4 (55296 + (c.toNat - 65536) / 1024) ++
      bslash :: 'u' :: hex4 (56320 + (c.toNat - 65536) % 1024)

/-- The characters of a JSON string literal after the opening quote: each source
character escaped per `escChar`, then the closing quote. -/
def escStr : List Char → List Char
  | [] => [qmark]
  | c :: cs => escChar c ++ escStr cs

/-- Decimal rendering of an integer, as produced by `json.dumps` for Python ints. -/
def intDigits : Int → List Char
  | .ofNat n => natDigits n
  | .negSucc m => '-' :: natDigits (m + 1)

mutual
/-- `json.dumps(obj)` with default options: compact value rendering with the default
`", "` item and `": "` key separators and `ensure_ascii=True`. -/
def dumps : JValue → List Char
  | .null => "null".data
  | .bool true => "true".data
  | .bool false => "false".data
  | .int n => intDigits n
  | .str s => qmark :: escStr s
  | .arr .nil => ['[', ']']
  | .arr (.cons x tl) => '[' :: (dumps x ++ dumpsA tl)
  | .obj .nil => [lbrace, rbrace]
  | .obj (.cons k v tl) =>
    lbrace :: ((qmark :: escStr k) ++ (':' :: ' ' :: (dumps v ++ dumpsO tl)))
/-- Rendering of the remaining elements of a non-empty array (after the first),
each preceded by the default `", "` separator, then the closing bracket. -/
def dumpsA : JArr → List Char
  | .nil => [']']
  | .cons x tl => ',' :: ' ' :: (dumps x ++ dumpsA tl)
/-- Rendering of the remaining entries of a non-empty object (after the first),
each preceded by `", "`, with the `": "` key separator, then the closing brace. -/
def dumpsO : JObj → List Char
  | .nil => [rbrace]
  | .cons k v tl =>
    ',' :: ' ' :: ((qmark :: escStr k) ++ (':' :: ' ' :: (dumps v ++ dumpsO tl)))
end

/-! ## `ensure_ascii`: every character `dumps` emits is ASCII -/


/-- All characters of `l` are ASCII. -/
def asciiL (l : List Char) : Prop := ∀ c ∈ l, c.toNat < 128

instance decAsciiL (l : List Char) : Decidable (asciiL l) :=
  inferInstanceAs (Decidable (∀ c ∈ l, c.toNat < 128))

theorem asciiL_append {a b : List Char} (ha : asciiL a) (hb : asciiL b) : asciiL (a ++ b) := by
  intro c hc
  rcases List.mem_append.1 hc with h | h
  · exact ha c h
  · exact hb c h

theorem asciiL_cons {c : Char} {l : List Char} (hc : c.toNat < 128) (hl : asciiL l) :
    asciiL (c :: l) := by
  intro c1 hc1
  rcases List.mem_cons.1 hc1 with rfl | h
  · exact hc
  · exact hl c1 h

theorem hexDigit_ascii (d : Nat) : (hexDigit d).toNat < 128 := by
  unfold hexDigit; split <;> decide

theorem hex4_ascii (n : Nat) : asciiL (hex4 n) := by
  intro c hc
  simp only [hex4, List.mem_cons, List.not_mem_nil, or_false] at hc
  rcases hc with rfl | rfl | rfl | rfl <;> exact hexDigit_ascii _

theorem isDigitC_ascii {c : Char} (h : isDigitC c) : c.toNat < 128 := by
  simp [isDigitC] at h; omega

theorem escChar_ascii (c : Char) : asciiL (escChar c) := by
  unfold escChar
  split
  · decide
  split
  · decide
  split
  · decide
  split
  · decide
  split
  · decide
  split
  · decide
  split
  · decide
  split
  · rename_i hr
    intro c1 hc1
    simp at hc1
    subst hc1
    omega
  split
  · exact asciiL_cons (by decide) (asciiL_cons (by decide) (hex4_ascii _))
  · exact asciiL_append
      (asciiL_cons (by decide) (asciiL_cons (by decide) (hex4_ascii _)))
      (asciiL_cons (by decide) (asciiL_cons (by decide) (hex4_ascii _)))

theorem escStr_ascii : ∀ s : List Char, asciiL (escStr s) := by
  intro s
  induction s with
  | nil => decide
  | cons x xs ih => exact asciiL_append (escChar_ascii x) ih

theorem natDigits_ascii (n : Nat) : asciiL (natDigits n) :=
  fun c hc => isDigitC_ascii (natDigits_all_digits n c hc)

theorem intDigits_ascii (n : Int) : asciiL (intDigits n) := by
  cases n with
  | ofNat m => exact natDigits_ascii m
  | negSucc m => exact asciiL_cons (by decide) (natDigits_ascii _)

mutual
theorem dumps_ascii : ∀ v : JValue, asciiL (dumps v)
  | .null => by decide
  | .bool true => by decide
  | .bool false => by decide
  | .int n => intDigits_ascii n
  | .str s => asciiL_cons (by decide) (escStr_ascii s)
  | .arr .nil => by decide
  | .arr (.cons x tl) =>
    asciiL_cons (by decide) (asciiL_append (dumps_ascii x) (dumpsA_ascii tl))
  | .obj .nil => by decide
  | .obj (.cons k v tl) =>
    asciiL_cons (by decide)
      (asciiL_append (asciiL_cons (by decide) (escStr_ascii k))
        (asciiL_cons (by decide) (asciiL_cons (by decide)
          (asciiL_append (dumps_ascii v) (dumpsO_ascii tl)))))
theorem dumpsA_ascii : ∀ a : JArr, asciiL (dumpsA a)
  | .nil => by decide
  | .cons x tl =>
    asciiL_cons (by decide)
      (asciiL_cons (by decide) (asciiL_append (dumps_ascii x) (dumpsA_ascii tl)))
theorem dumpsO_ascii : ∀ o : JObj, asciiL (dumpsO o)
  | .nil => by decide
  | .cons k v tl =>
    asciiL_cons (by decide)
      (asciiL_cons (by decide)
        (asciiL_append (asciiL_cons (by decide) (escStr_ascii k))
          (asciiL_cons (by decide) (asciiL_cons (by decide)
            (asciiL_append (dumps_ascii v) (dumpsO_ascii tl))))))
end

/-! ## UTF-8 byte length -/

/-- Number of bytes of the UTF-8 encoding of one unicode scalar value. -/
def utf8Size (c : Char) : Nat :=
  if c.toNat < 128 then 1 else if c.toNat < 2048 then 2 else if c.toNat < 65536 then 3 else 4

/-- UTF-8 byte length of a character sequence. -/
def utf8Len : List Char → Nat
  | [] => 0
  | c :: cs => utf8Size c + utf8Len cs

theorem utf8Len_of_ascii : ∀ s : List Char, asciiL s → utf8Len s = s.length := by
  intro s
  induction s with
  | nil => intro _; rfl
  | cons c cs ih =>
    intro h
    have hc : utf8Size c = 1 := by simp [utf8Size, h c (by simp)]
    simp only [utf8Len, List.length_cons, hc, ih fun x hx => h x (by simp [hx])]
    omega

/-! ## `encode_lsp` -/

/-- The framing header terminator `\r\n\r\n`. -/
def crlfcrlf : List Char := ['\r', '\n', '\r', '\n']

/-- The literal `"Content-Length: "` used both by `encode_lsp`'s f-string and by the
decoder's regex (note the single space). -/
def headerLit : List Char := "Content-Length: ".data

/-- A `Content-Length`-framed payload:
`f"Content-Length: {len(content)}\r\n\r\n{content}"`.  The scripts run the child
process in text mode, so `len(content)` is the character count of `content`. -/
def frame (content : List Char) : List Char :=
  headerLit ++ natDigits content.length ++ crlfcrlf ++ content

/-- `encode_lsp(obj)` from benchmark.py:155-157 (identical in the other scripts):
`content = json.dumps(obj)`, then the framed string. -/
def encode_lsp (m : JValue) : List Char := frame (dumps m)

/-! ## `json.loads`

A recursive-descent model of CPython's `json.loads` on the values of `JValue`
(see the header for the modelling boundaries: inputs that denote floats —
fractions, exponents, `NaN`, `Infinity` — and lone surrogate escapes are rejected
rather than producing values outside the model).  `parseVal` is structural in a
fuel argument; `input.length + 1` fuel always suffices, since every nested call
consumes at least one character of its caller's input. -/

/-- JSON whitespace, Python's `_w` class `[ \t\n\r]`. -/
def wsChar (c : Char) : Bool := c = ' ' || c = '\t' || c = '\n' || c = '\r'

/-- Drop leading JSON whitespace. -/
def skipWs : List Char → List Char
  | [] => []
  | c :: r => if wsChar c then skipWs r else c :: r

/-- Value of one hexadecimal digit (either case), as in `\uXXXX` escapes. -/
def hexVal (c : Char) : Option Nat :=
  if isDigitC c then some (c.toNat - 48)
  else if 97 ≤ c.toNat ∧ c.toNat ≤ 102 then some (c.toNat - 87)
  else if 65 ≤ c.toNat ∧ c.toNat ≤ 70 then some (c.toNat - 55)
  else none

/-- The two-character string escapes accepted by the decoder
(`\"  \\  \/  \b  \f  \n  \r  \t`). -/
def escDecode (c : Char) : Option Char :=
  if c = qmark then some qmark
  else if c = bslash then some bslash
  else if c = '/' then some '/'
  else if c = 'b' then some (Char.ofNat 8)
  else if c = 'f' then some (Char.ofNat 12)
  else if c = 'n' then some '\n'
  else if c = 'r' then some '\r'
  else if c = 't' then some '\t'
  else none

/-- Value of a four-digit hexadecimal escape payload `XXXX`. -/
def hex4Val (h1 h2 h3 h4 : Char) : Option Nat :=
  match hexVal h1, hexVal h2, hexVal h3, hexVal h4 with
  | some a, some b, some c, some d => some (((a * 16 + b) * 16 + c) * 16 + d)
  | _, _, _, _ => none

/-- After a high surrogate `\uXXXX`, the decoder requires an immediately following
`\uYYYY` with `YYYY` in the low-surrogate range; returns its value and the rest. -/
def parseLowSur : List Char → Option (Nat × List Char)
  | b1 :: u2 :: h5 :: h6 :: h7 :: h8 :: r4 =>
    if b1 = bslash ∧ u2 = 'u' then
      match hex4Val h5 h6 h7 h8 with
      | some m => if 56320 ≤ m ∧ m ≤ 57343 then some (m, r4) else none
      | none => none
    else none
  | _ => none

/-- Body of a JSON string literal after the opening quote, as scanned by CPython's
`scanstring` in strict mode: literal characters (raw control characters below
`0x20` are rejected), short escapes, and `\uXXXX` escapes with surrogate-pair
recombination.  Returns the decoded characters and the input after the closing
quote.  Worker structural in a fuel argument; every recursive call consumes at
least one input character, so `input.length + 1` fuel always suffices. -/
def parseStrBodyF : Nat → List Char → Option (List Char × List Char)
  | 0, _ => none
  | fuel + 1, input =>
    match input with
    | [] => none
    | c :: r =>
      if c = qmark then some ([], r)
      else if c = bslash then
        match r with
        | [] => none
        | e :: r2 =>
          if e = 'u' then
            match r2 with
            | h1 :: h2 :: h3 :: h4 :: r3 =>
              match hex4Val h1 h2 h3 h4 with
              | some n =>
                if 55296 ≤ n ∧ n ≤ 56319 then
                  match parseLowSur r3 with
                  | some (m, r4) =>
                    match parseStrBodyF fuel r4 with
                    | some (s, rest) =>
                      some (Char.ofNat (65536 + (n - 55296) * 1024 + (m - 56320)) :: s, rest)
                    | none => none
                  | none => none
                else if 56320 ≤ n ∧ n ≤ 57343 then none
                else
                  match parseStrBodyF fuel r3 with
                  | some (s, rest) => some (Char.ofNat n :: s, rest)
                  | none => none
              | none => none
            | _ => none
          else
            match escDecode e with
            | some d =>
              match parseStrBodyF fuel r2 with
              | some (s, rest) => some (d :: s, rest)
              | none => none
            | none => none
      else if c.toNat < 32 then none
      else
        match parseStrBodyF fuel r with
        | some (s, rest) => some (c :: s, rest)
        | none => none

/-- `scanstring`: the fuel-instantiated worker. -/
def parseStrBody (s : List Char) : Option (List Char × List Char) :=
  parseStrBodyF (s.length + 1) s


/-- Longest leading run of decimal digits, as matched by `\d*`. -/
def takeDigits : List Char → List Char × List Char
  | [] => ([], [])
  | c :: r =>
    if isDigitC c then
      match takeDigits r with
      | (ds, rest) => (c :: ds, rest)
    else ([], c :: r)

/-- The integer part of a JSON number, per the pattern `(?:0|[1-9]\d*)`: a leading
`0` stands alone, otherwise the maximal digit run. -/
def parseUIntJ : List Char → Option (Nat × List Char)
  | [] => none
  | c :: r =>
    if c = '0' then some (0, r)
    else if isDigitC c then
      match takeDigits r with
      | (ds, rest) => some (parseNatD (c :: ds), rest)
    else none

/-- One JSON value, as scanned by CPython's `scan_once` (with the containers'
whitespace handling and the no-trailing-comma rules of `JSONArray`/`JSONObject`
folded in): returns the value and the unconsumed remainder. -/
def parseVal : Nat → List Char → Option (JValue × List Char)
  | 0, _ => none
  | fuel + 1, input =>
    match skipWs input with
    | [] => none
    | c :: r =>
      if c = qmark then
        match parseStrBody r with
        | some (s, rest) => some (.str s, rest)
        | none => none
      else if c = '[' then
        match skipWs r with
        | [] => none
        | c2 :: r2 =>
          if c2 = ']' then some (.arr .nil, r2)
          else
            match parseVal fuel (c2 :: r2) with
            | some (x, rest) =>
              match skipWs rest with
              | [] => none
              | c3 :: r3 =>
                if c3 = ']' then some (.arr (.cons x .nil), r3)
                else if c3 = ',' then
                  match skipWs r3 with
                  | [] => none
                  | c4 :: r4 =>
                    if c4 = ']' then none
                    else
                      match parseVal fuel ('[' :: c4 :: r4) with
                      | some (.arr xs, rest2) => some (.arr (.cons x xs), rest2)
                      | _ => none
                else none
            | none => none
      else if c = lbrace then
        match skipWs r with
        | [] => none
        | c2 :: r2 =>
          if c2 = rbrace then some (.obj .nil, r2)
          else if c2 = qmark then
            match parseStrBody r2 with
            | some (k, rest) =>
              match skipWs rest with
              | [] => none
              | c3 :: r3 =>
                if c3 = ':' then
                  match parseVal fuel r3 with
                  | some (v, rest2) =>
                    match skipWs rest2 with
                    | [] => none
                    | c4 :: r4 =>
                      if c4 = rbrace then some (.obj (.cons k v .nil), r4)
                      else if c4 = ',' then
                        match skipWs r4 with
                        | [] => none
                        | c5 :: r5 =>
                          if c5 = qmark then
                            match parseVal fuel (lbrace :: c5 :: r5) with
                            | some (.obj kvs, rest3) => some (.obj (.cons k v kvs), rest3)
                            | _ => none
                          else none
                      else none
                  | none => none
                else none
            | none => none
          else none
      else if c = 'n' then
        match r with
        | u :: l1 :: l2 :: rest =>
          if u = 'u' ∧ l1 = 'l' ∧ l2 = 'l' then some (.null, rest) else none
        | _ => none
      else if c = 't' then
        match r with
        | a :: b :: d :: rest =>
          if a = 'r' ∧ b = 'u' ∧ d = 'e' then some (.bool true, rest) else none
        | _ => none
      else if c = 'f' then
        match r with
        | a :: b :: d :: e :: rest =>
          if a = 'a' ∧ b = 'l' ∧ d = 's' ∧ e = 'e' then some (.bool false, rest) else none
        | _ => none
      else if c = '-' then
        match parseUIntJ r with
        | some (n, rest) => some (.int (-(n : Int)), rest)
        | none => none
      else if isDigitC c then
        match parseUIntJ (c :: r) with
        | some (n, rest) => some (.int (n : Int), rest)
        | none => none
      else none

/-- `json.loads(s)`: skip surrounding whitespace, scan one value, and reject any
trailing data (`Extra data` in CPython); `none` models a raised
`json.JSONDecodeError`. -/
def loads (s : List Char) : Option JValue :=
  match parseVal (s.length + 1) s with
  | some (v, rest) => if skipWs rest = [] then some v else none
  | none => none

/-! ## Round-trip: `loads (dumps v) = some v` -/

theorem char_eq_iff_toNat {a b : Char} : a = b ↔ a.toNat = b.toNat := by
  constructor
  · intro h; rw [h]
  · intro h; exact Char.ext (by exact UInt32.ext (by exact h))

theorem char_valid_nat (c : Char) : c.toNat < 55296 ∨ (57343 < c.toNat ∧ c.toNat < 1114112) := by
  have h := c.valid
  simp only [UInt32.isValidChar, Nat.isValidChar, Char.toNat] at h ⊢
  omega

theorem hexVal_hexDigit {d : Nat} (h : d < 16) : hexVal (hexDigit d) = some d := by
  interval_cases d <;> decide

theorem escChar_len_pos (c : Char) : 1 ≤ (escChar c).length := by
  unfold escChar
  repeat' split
  all_goals simp

theorem escStr_len_pos (s : List Char) : 1 ≤ (escStr s).length := by
  cases s with
  | nil => simp [escStr]
  | cons c cs =>
    simp only [escStr, List.length_append]
    have := escChar_len_pos c
    omega

theorem hex4Val_hex4 {n : Nat} (hn : n < 65536) :
    hex4Val (hexDigit (n / 4096 % 16)) (hexDigit (n / 256 % 16)) (hexDigit (n / 16 % 16))
      (hexDigit (n % 16)) = some n := by
  unfold hex4Val
  rw [hexVal_hexDigit (by omega), hexVal_hexDigit (by omega), hexVal_hexDigit (by omega),
    hexVal_hexDigit (by omega)]
  simp only [Option.some.injEq]
  omega

theorem parseLowSur_hex4 {m : Nat} (h1 : 56320 ≤ m) (h2 : m ≤ 57343) (X : List Char) :
    parseLowSur (bslash :: 'u' :: (hex4 m ++ X)) = some (m, X) := by
  simp only [hex4, List.cons_append, List.nil_append, parseLowSur]
  rw [if_pos (by simp), hex4Val_hex4 (by omega)]
  simp only [if_pos (And.intro h1 h2)]

theorem parseStrBodyF_short (e d : Char) (t rest s : List Char) (fuel : Nat)
    (he : escDecode e = some d) (hne : e ≠ 'u')
    (ih : parseStrBodyF fuel (t ++ rest) = some (s, rest)) :
    parseStrBodyF (fuel + 1) (bslash :: e :: (t ++ rest)) = some ((d :: s), rest) := by
  rw [parseStrBodyF.eq_def]
  simp only [if_true]
  rw [if_neg hne, he]
  simp only [ih]
  rw [if_neg (by decide : ¬(bslash = qmark))]

theorem parseStrBodyF_u4 (n : Nat) (t rest s : List Char) (fuel : Nat)
    (hn : n < 65536) (hs1 : ¬(55296 ≤ n ∧ n ≤ 56319)) (hs2 : ¬(56320 ≤ n ∧ n ≤ 57343))
    (ih : parseStrBodyF fuel (t ++ rest) = some (s, rest)) :
    parseStrBodyF (fuel + 1) (bslash :: 'u' :: (hex4 n ++ (t ++ rest))) =
      some ((Char.ofNat n :: s), rest) := by
  simp only [hex4, List.cons_append, List.nil_append]
  rw [parseStrBodyF.eq_def]
  simp only [if_true, hex4Val_hex4 hn]
  rw [if_neg hs1, if_neg hs2]
  simp only [ih]
  rw [if_neg (by decide : ¬(bslash = qmark))]

theorem parseStrBodyF_hiLow (hi m : Nat) (Y t rest s : List Char) (fuel : Nat)
    (hr : 55296 ≤ hi ∧ hi ≤ 56319)
    (hY : parseLowSur Y = some (m, t ++ rest))
    (ih : parseStrBodyF fuel (t ++ rest) = some (s, rest)) :
    parseStrBodyF (fuel + 1) (bslash :: 'u' :: (hex4 hi ++ Y)) =
      some ((Char.ofNat (65536 + (hi - 55296) * 1024 + (m - 56320)) :: s), rest) := by
  simp only [hex4, List.cons_append, List.nil_append]
  rw [parseStrBodyF.eq_def]
  simp only [if_true, hex4Val_hex4 (show hi < 65536 by omega)]
  rw [if_pos hr, hY]
  simp only [ih]
  rw [if_neg (by decide : ¬(bslash = qmark))]

theorem parseStrBodyF_pair (n : Nat) (t rest s : List Char) (fuel : Nat)
    (hbig : 65536 ≤ n) (hlt : n < 1114112)
    (ih : parseStrBodyF fuel (t ++ rest) = some (s, rest)) :
    parseStrBodyF (fuel + 1)
      (bslash :: 'u' :: (hex4 (55296 + (n - 65536) / 1024) ++
        (bslash :: 'u' :: (hex4 (56320 + (n - 65536) % 1024) ++ (t ++ rest))))) =
      some ((Char.ofNat n :: s), rest) := by
  have h := parseStrBodyF_hiLow (55296 + (n - 65536) / 1024) (56320 + (n - 65536) % 1024)
    (bslash :: 'u' :: (hex4 (56320 + (n - 65536) % 1024) ++ (t ++ rest))) t rest s fuel
    (by omega) (parseLowSur_hex4 (by omega) (by omega) (t ++ rest)) ih
  have hfin : 65536 + (55296 + (n - 65536) / 1024 - 55296) * 1024 +
      (56320 + (n - 65536) % 1024 - 56320) = n := by omega
  rw [hfin] at h
  exact h

theorem parseStrBodyF_plain (c : Char) (t rest s : List Char) (fuel : Nat)
    (h1 : c ≠ qmark) (h2 : c ≠ bslash) (h3 : ¬ c.toNat < 32)
    (ih : parseStrBodyF fuel (t ++ rest) = some (s, rest)) :
    parseStrBodyF (fuel + 1) (c :: (t ++ rest)) = some ((c :: s), rest) := by
  rw [parseStrBodyF.eq_def]
  simp only
  rw [if_neg h1, if_neg h2, if_neg h3]
  simp only [ih]

theorem parseStrBodyF_escChar (c : Char) (t rest s : List Char) (fuel : Nat)
    (ih : parseStrBodyF fuel (t ++ rest) = some (s, rest)) :
    parseStrBodyF (fuel + 1) ((escChar c ++ t) ++ rest) = some ((c :: s), rest) := by
  have hofn : Char.ofNat c.toNat = c := Char.ofNat_toNat c
  unfold escChar
  split
  · rename_i h; subst h
    simpa using parseStrBodyF_short qmark qmark t rest s fuel (by decide) (by decide) ih
  split
  · rename_i h; subst h
    simpa using parseStrBodyF_short bslash bslash t rest s fuel (by decide) (by decide) ih
  split
  · rename_i h; subst h
    simpa using parseStrBodyF_short 'n' '\n' t rest s fuel (by decide) (by decide) ih
  split
  · rename_i h; subst h
    simpa using parseStrBodyF_short 'r' '\x0d' t rest s fuel (by decide) (by decide) ih
  split
  · rename_i h; subst h
    simpa using parseStrBodyF_short 't' '\t' t rest s fuel (by decide) (by decide) ih
  split
  · rename_i h
    have hc : Char.ofNat 8 = c := by rw [← h]; exact hofn
    rw [← hc]
    simpa using parseStrBodyF_short 'b' (Char.ofNat 8) t rest s fuel (by decide) (by decide) ih
  split
  · rename_i h
    have hc : Char.ofNat 12 = c := by rw [← h]; exact hofn
    rw [← hc]
    simpa using parseStrBodyF_short 'f' (Char.ofNat 12) t rest s fuel (by decide) (by decide) ih
  split
  · rename_i h1 h2 h3 h4 h5 h6 h7 h8
    simpa using parseStrBodyF_plain c t rest s fuel h1 h2 (by omega) ih
  split
  · rename_i h9
    have hval := char_valid_nat c
    have h := parseStrBodyF_u4 c.toNat t rest s fuel (by omega) (by omega) (by omega) ih
    rw [hofn] at h
    simpa using h
  · rename_i h1 h2 h3 h4 h5 h6 h7 h8 h9
    have hval := char_valid_nat c
    have hbig : 65536 ≤ c.toNat := by omega
    have hlt : c.toNat < 1114112 := by omega
    have h := parseStrBodyF_pair c.toNat t rest s fuel hbig hlt ih
    rw [hofn] at h
    simpa using h

/-- `scanstring` inverts the encoder's string-body escaping (fuel-general form). -/
theorem parseStrBodyF_escStr : ∀ (s : List Char), ∀ (rest : List Char) (fuel : Nat),
    (escStr s).length ≤ fuel →
    parseStrBodyF (fuel + 1) (escStr s ++ rest) = some (s, rest) := by
  intro s
  induction s with
  | nil =>
    intro rest fuel _
    rw [escStr, List.cons_append, List.nil_append, parseStrBodyF.eq_def]
    simp +decide
  | cons c cs ih =>
    intro rest fuel hfuel
    have hlc := escChar_len_pos c
    have hls := escStr_len_pos cs
    simp only [escStr, List.length_append] at hfuel
    have ih2 : parseStrBodyF fuel (escStr cs ++ rest) = some (cs, rest) := by
      have h3 : fuel = (fuel - 1) + 1 := by omega
      rw [h3]
      exact ih rest (fuel - 1) (by omega)
    have h := parseStrBodyF_escChar c (escStr cs) rest cs fuel ih2
    rw [escStr]
    exact h

/-- `scanstring` inverts the encoder's string-body escaping. -/
theorem parseStrBody_escStr (s rest : List Char) :
    parseStrBody (escStr s ++ rest) = some (s, rest) := by
  unfold parseStrBody
  rw [List.length_append]
  have h1 : (escStr s).length + rest.length + 1 = ((escStr s).length + rest.length) + 1 := rfl
  rw [h1]
  exact parseStrBodyF_escStr s rest _ (by omega)

/-- The characters that may legitimately follow a complete JSON value inside a
document produced by `dumps`: an item separator or a closing bracket/brace (or
the end of the document). -/
def sepHead : List Char → Prop
  | [] => True
  | c :: _ => c = ',' ∨ c = ']' ∨ c = rbrace

theorem sepHead_not_digit {c : Char} {r : List Char} (h : sepHead (c :: r)) :
    isDigitC c = false := by
  rcases h with h | h | h <;> subst h <;> decide

theorem qmark_toNat : qmark.toNat = 34 := by decide

theorem lbrace_toNat : lbrace.toNat = 123 := by decide

theorem rbrace_toNat : rbrace.toNat = 125 := by decide

theorem takeDigits_append : ∀ (ds rest : List Char), (∀ d ∈ ds, isDigitC d) →
    sepHead rest → takeDigits (ds ++ rest) = (ds, rest) := by
  intro ds
  induction ds with
  | nil =>
    intro rest _ hsep
    cases rest with
    | nil => rfl
    | cons c r =>
      simp only [List.nil_append, takeDigits]
      rw [if_neg (by simp [sepHead_not_digit hsep])]
  | cons d ds ih =>
    intro rest hall hsep
    simp only [List.cons_append, takeDigits]
    rw [if_pos (hall d (by simp))]
    simp only [List.append_eq, ih rest (fun x hx => hall x (by simp [hx])) hsep]

theorem natDigitsCore_head : ∀ fuel n, 0 < n → n < fuel →
    ∃ d ds, natDigitsCore fuel n [] = d :: ds ∧ d ≠ '0' := by
  intro fuel
  induction fuel with
  | zero => omega
  | succ fuel ih =>
    intro n hpos hlt
    by_cases h : n < 10
    · refine ⟨digitChar n, [], by simp [natDigitsCore, h], ?_⟩
      interval_cases n <;> decide
    · have hd : n / 10 < fuel := by
        have h1 : n / 10 < n := Nat.div_lt_self (by omega) (by omega)
        omega
      have hp : 0 < n / 10 := by omega
      obtain ⟨d, ds, hds, hd0⟩ := ih (n / 10) hp hd
      refine ⟨d, ds ++ [digitChar (n % 10)], ?_, hd0⟩
      simp only [natDigitsCore, if_neg h]
      rw [natDigitsCore_acc, hds]
      simp

theorem natDigits_head {n : Nat} (h : 0 < n) :
    ∃ d ds, natDigits n = d :: ds ∧ d ≠ '0' ∧ isDigitC d ∧ (∀ c ∈ ds, isDigitC c) := by
  obtain ⟨d, ds, hds, hd0⟩ := natDigitsCore_head (n + 1) n h (by omega)
  have hall := natDigits_all_digits n
  rw [natDigits] at *
  rw [hds] at hall
  exact ⟨d, ds, hds, hd0, hall d (by simp), fun c hc => hall c (by simp [hc])⟩

theorem parseUIntJ_natDigits (n : Nat) (rest : List Char) (hsep : sepHead rest) :
    parseUIntJ (natDigits n ++ rest) = some (n, rest) := by
  by_cases h : n = 0
  · subst h
    cases rest with
    | nil => rfl
    | cons c r =>
      show parseUIntJ ('0' :: (c :: r)) = some (0, c :: r)
      rw [parseUIntJ]
      simp
  · obtain ⟨d, ds, hds, hd0, hdig, hall⟩ := natDigits_head (n := n) (by omega)
    rw [hds, List.cons_append, parseUIntJ]
    rw [if_neg hd0, if_pos hdig, takeDigits_append ds rest hall hsep]
    have : parseNatD (d :: ds) = n := by rw [← hds]; exact parseNatD_natDigits n
    simp [this]

theorem space_toNat : (' ').toNat = 32 := by decide

theorem tab_toNat : ('\t').toNat = 9 := by decide

theorem lf_toNat : ('\n').toNat = 10 := by decide

theorem cr_toNat : ('\x0d').toNat = 13 := by decide

theorem rsq_toNat : (']').toNat = 93 := by decide

theorem comma_toNat : (',').toNat = 44 := by decide

/-- The possible first characters of `dumps v`. -/
theorem dumps_head_cases : ∀ v : JValue, ∃ c t, dumps v = c :: t ∧
    (c = 'n' ∨ c = 't' ∨ c = 'f' ∨ isDigitC c ∨ c = '-' ∨ c = qmark ∨ c = '[' ∨ c = lbrace) := by
  intro v
  cases v with
  | null => exact ⟨'n', _, rfl, by simp⟩
  | bool b =>
    cases b
    · exact ⟨'f', _, rfl, by simp⟩
    · exact ⟨'t', _, rfl, by simp⟩
  | int n =>
    cases n with
    | ofNat m =>
      by_cases h : m = 0
      · subst h
        exact ⟨'0', [], rfl, by right; right; right; left; decide⟩
      · obtain ⟨d, ds, hds, _, hdig, _⟩ := natDigits_head (n := m) (by omega)
        exact ⟨d, ds, hds, by simp [hdig]⟩
    | negSucc m => exact ⟨'-', _, rfl, by simp⟩
  | str s => exact ⟨qmark, _, rfl, by simp⟩
  | arr a =>
    cases a
    · exact ⟨'[', _, rfl, by simp⟩
    · exact ⟨'[', _, rfl, by simp⟩
  | obj o =>
    cases o
    · exact ⟨lbrace, _, rfl, by simp⟩
    · exact ⟨lbrace, _, rfl, by simp⟩

theorem head_facts_of_cases {c : Char}
    (hc : c = 'n' ∨ c = 't' ∨ c = 'f' ∨ isDigitC c ∨ c = '-' ∨ c = qmark ∨ c = '[' ∨
      c = lbrace) :
    wsChar c = false ∧ c ≠ ']' ∧ c ≠ rbrace ∧ c ≠ ',' := by
  rcases hc with h | h | h | h | h | h | h | h
  all_goals first
    | (subst h; exact ⟨by decide, by decide, by decide, by decide⟩)
    | (simp only [isDigitC, Bool.and_eq_true, decide_eq_true_eq] at h
       refine ⟨?_, ?_, ?_, ?_⟩
       · simp only [wsChar]
         simp [char_eq_iff_toNat, space_toNat, tab_toNat, lf_toNat, cr_toNat]
         omega
       · simp [char_eq_iff_toNat, rsq_toNat]
         omega
       · simp [char_eq_iff_toNat, rbrace_toNat]
         omega
       · simp [char_eq_iff_toNat, comma_toNat]
         omega)

theorem dumps_head_facts : ∀ v : JValue, ∃ c t, dumps v = c :: t ∧
    wsChar c = false ∧ c ≠ ']' ∧ c ≠ rbrace ∧ c ≠ ',' := by
  intro v
  obtain ⟨c, t, hct, hc⟩ := dumps_head_cases v
  exact ⟨c, t, hct, head_facts_of_cases hc⟩

theorem skipWs_not_ws {c : Char} {r : List Char} (h : wsChar c = false) :
    skipWs (c :: r) = c :: r := by
  rw [skipWs, if_neg (by simp [h])]

theorem sepHead_dumpsA (a : JArr) (rest : List Char) : sepHead (dumpsA a ++ rest) := by
  cases a <;> simp [dumpsA, sepHead]

theorem sepHead_dumpsO (o : JObj) (rest : List Char) : sepHead (dumpsO o ++ rest) := by
  cases o <;> simp [dumpsO, sepHead]

theorem dumps_len_pos (v : JValue) : 1 ≤ (dumps v).length := by
  obtain ⟨c, t, hct, _⟩ := dumps_head_cases v
  simp [hct]

theorem dumpsA_len_pos (a : JArr) : 1 ≤ (dumpsA a).length := by
  cases a <;> simp [dumpsA]

theorem dumpsO_len_pos (o : JObj) : 1 ≤ (dumpsO o).length := by
  cases o <;> simp [dumpsO]

theorem digit_ne_starts {c : Char} (h : isDigitC c) :
    c ≠ qmark ∧ c ≠ '[' ∧ c ≠ lbrace ∧ c ≠ 'n' ∧ c ≠ 't' ∧ c ≠ 'f' ∧ c ≠ '-' := by
  simp only [isDigitC, Bool.and_eq_true, decide_eq_true_eq] at h
  refine ⟨?_, ?_, ?_, ?_, ?_, ?_, ?_⟩ <;>
    (simp [char_eq_iff_toNat, qmark_toNat, lbrace_toNat]; omega)
theorem parseVal_ws (fuel : Nat) (c : Char) (X : List Char) (hc : wsChar c = true) :
    parseVal fuel (c :: X) = parseVal fuel X := by
  cases fuel with
  | zero => rfl
  | succ g =>
    rw [parseVal.eq_def]
    conv_rhs => rw [parseVal.eq_def]
    simp only
    rw [show skipWs (c :: X) = skipWs X from by rw [skipWs, if_pos (by simp [hc])]]

theorem parseVal_dumps : ∀ fuel (v : JValue) (rest : List Char),
    (dumps v).length < fuel → sepHead rest →
    parseVal fuel (dumps v ++ rest) = some (v, rest) := by
  intro fuel
  induction fuel using Nat.strong_induction_on with
  | _ fuel ih =>
    intro v rest hlen hsep
    obtain ⟨f, rfl⟩ : ∃ f, fuel = f + 1 := ⟨fuel - 1, by have := dumps_len_pos v; omega⟩
    cases v with
    | null =>
      rw [show dumps JValue.null ++ rest = 'n' :: 'u' :: 'l' :: 'l' :: rest from rfl]
      rw [parseVal.eq_def]
      simp +decide [skipWs, wsChar]
    | bool b =>
      cases b
      · rw [show dumps (JValue.bool false) ++ rest = 'f' :: 'a' :: 'l' :: 's' :: 'e' :: rest
          from rfl]
        rw [parseVal.eq_def]
        simp +decide [skipWs, wsChar]
      · rw [show dumps (JValue.bool true) ++ rest = 't' :: 'r' :: 'u' :: 'e' :: rest from rfl]
        rw [parseVal.eq_def]
        simp +decide [skipWs, wsChar]
    | int n =>
      cases n with
      | ofNat m =>
        by_cases hm : m = 0
        · subst hm
          rw [show dumps (JValue.int (Int.ofNat 0)) ++ rest = '0' :: rest from rfl]
          rw [parseVal.eq_def]
          simp +decide [skipWs, wsChar, parseUIntJ]
        · obtain ⟨d, ds, hds, hd0, hdig, hall⟩ := natDigits_head (n := m) (by omega)
          have hfacts := head_facts_of_cases (c := d) (by simp [hdig])
          have hne := digit_ne_starts hdig
          have hp : parseUIntJ (natDigits m ++ rest) = some (m, rest) :=
            parseUIntJ_natDigits m rest hsep
          rw [show dumps (JValue.int (Int.ofNat m)) = natDigits m from rfl]
          rw [parseVal.eq_def, hds, List.cons_append]
          simp only
          rw [skipWs_not_ws (c := d) hfacts.1]
          simp only
          rw [if_neg hne.1, if_neg hne.2.1, if_neg hne.2.2.1, if_neg hne.2.2.2.1,
            if_neg hne.2.2.2.2.1, if_neg hne.2.2.2.2.2.1, if_neg hne.2.2.2.2.2.2, if_pos hdig]
          rw [← List.cons_append, ← hds, hp]
          simp
      | negSucc m =>
        rw [show dumps (JValue.int (Int.negSucc m)) ++ rest =
          '-' :: (natDigits (m + 1) ++ rest) from by simp [dumps, intDigits]]
        have hp : parseUIntJ (natDigits (m + 1) ++ rest) = some (m + 1, rest) :=
          parseUIntJ_natDigits (m + 1) rest hsep
        rw [parseVal.eq_def]
        simp only
        rw [skipWs_not_ws (c := '-') (by decide)]
        simp +decide [hp, Int.negSucc_eq]
    | str s =>
      rw [show dumps (JValue.str s) ++ rest = qmark :: (escStr s ++ rest) from by
        simp [dumps]]
      rw [parseVal.eq_def]
      simp only
      rw [skipWs_not_ws (c := qmark) (by decide)]
      simp +decide [parseStrBody_escStr s rest]
    | arr a =>
      cases a with
      | nil =>
        rw [show dumps (JValue.arr JArr.nil) ++ rest = '[' :: ']' :: rest from rfl]
        rw [parseVal.eq_def]
        simp +decide [skipWs, wsChar]
      | cons x tl =>
        rw [show dumps (JValue.arr (JArr.cons x tl)) ++ rest =
          '[' :: (dumps x ++ (dumpsA tl ++ rest)) from by simp [dumps]]
        rw [parseVal.eq_def]
        simp only
        rw [skipWs_not_ws (c := '[') (by decide)]
        simp only
        rw [if_neg (show ¬(('[' : Char) = qmark) from by decide)]
        simp only [if_true]
        obtain ⟨cx, tx, hx, hxw, hxrb, hxrbr, hxc⟩ := dumps_head_facts x
        rw [hx, List.cons_append]
        rw [skipWs_not_ws (c := cx) hxw]
        simp only
        rw [if_neg hxrb]
        rw [show cx :: (tx ++ (dumpsA tl ++ rest)) = dumps x ++ (dumpsA tl ++ rest) from by
          rw [hx, List.cons_append]]
        have hlen2 := hlen
        simp [dumps] at hlen2
        have hlenx : (dumps x).length < f := by
          have := dumpsA_len_pos tl
          omega
        rw [ih f (by omega) x (dumpsA tl ++ rest) hlenx (sepHead_dumpsA tl rest)]
        simp only
        cases tl with
        | nil =>
          rw [show dumpsA JArr.nil ++ rest = ']' :: rest from rfl]
          rw [skipWs_not_ws (c := ']') (by decide)]
          simp +decide
        | cons y tl2 =>
          rw [show dumpsA (JArr.cons y tl2) ++ rest =
            ',' :: (' ' :: (dumps y ++ (dumpsA tl2 ++ rest))) from by simp [dumpsA]]
          rw [skipWs_not_ws (c := ',') (by decide)]
          simp only
          rw [if_neg (show ¬((',' : Char) = ']') from by decide)]
          simp only [if_true]
          rw [show skipWs (' ' :: (dumps y ++ (dumpsA tl2 ++ rest))) =
            skipWs (dumps y ++ (dumpsA tl2 ++ rest)) from by
              rw [skipWs, if_pos (by decide)]]
          obtain ⟨cy, ty, hy, hyw, hyrb, hyrbr, hyc⟩ := dumps_head_facts y
          rw [hy, List.cons_append]
          rw [skipWs_not_ws (c := cy) hyw]
          simp only
          rw [if_neg hyrb]
          rw [show '[' :: cy :: (ty ++ (dumpsA tl2 ++ rest)) =
            dumps (JValue.arr (JArr.cons y tl2)) ++ rest from by
              simp [dumps, hy]]
          have hleny : (dumps (JValue.arr (JArr.cons y tl2))).length < f := by
            have h1 := dumps_len_pos x
            simp [dumpsA] at hlen2
            simp [dumps]
            omega
          rw [ih f (by omega) (JValue.arr (JArr.cons y tl2)) rest hleny hsep]
    | obj o =>
      cases o with
      | nil =>
        rw [show dumps (JValue.obj JObj.nil) ++ rest = lbrace :: rbrace :: rest from rfl]
        rw [parseVal.eq_def]
        simp +decide [skipWs, wsChar]
      | cons k v tl =>
        rw [show dumps (JValue.obj (JObj.cons k v tl)) ++ rest =
          lbrace :: (qmark :: (escStr k ++ (':' :: (' ' ::
            (dumps v ++ (dumpsO tl ++ rest)))))) from by simp [dumps]]
        rw [parseVal.eq_def]
        simp only
        rw [skipWs_not_ws (c := lbrace) (by decide)]
        simp only
        rw [if_neg (show ¬(lbrace = qmark) from by decide)]
        rw [if_neg (show ¬(lbrace = '[') from by decide)]
        simp only [if_true]
        rw [skipWs_not_ws (c := qmark) (by decide)]
        simp only
        rw [if_neg (show ¬(qmark = rbrace) from by decide)]
        simp only [if_true]
        rw [parseStrBody_escStr k]
        simp only
        rw [skipWs_not_ws (c := ':') (by decide)]
        simp only
        simp only [if_true]
        rw [parseVal_ws f ' ' _ (by decide)]
        have hlen2 := hlen
        simp [dumps] at hlen2
        have hlenv : (dumps v).length < f := by
          have h1 := dumpsO_len_pos tl
          have h2 := escStr_len_pos k
          omega
        rw [ih f (by omega) v (dumpsO tl ++ rest) hlenv (sepHead_dumpsO tl rest)]
        simp only
        cases tl with
        | nil =>
          rw [show dumpsO JObj.nil ++ rest = rbrace :: rest from rfl]
          rw [skipWs_not_ws (c := rbrace) (by decide)]
          simp +decide
        | cons k2 v2 tl2 =>
          rw [show dumpsO (JObj.cons k2 v2 tl2) ++ rest =
            ',' :: (' ' :: (qmark :: (escStr k2 ++ (':' :: (' ' ::
              (dumps v2 ++ (dumpsO tl2 ++ rest))))))) from by simp [dumpsO]]
          rw [skipWs_not_ws (c := ',') (by decide)]
          simp only
          rw [if_neg (show ¬((',' : Char) = rbrace) from by decide)]
          simp only [if_true]
          rw [show skipWs (' ' :: (qmark :: (escStr k2 ++ (':' :: (' ' ::
              (dumps v2 ++ (dumpsO tl2 ++ rest))))))) =
            qmark :: (escStr k2 ++ (':' :: (' ' :: (dumps v2 ++ (dumpsO tl2 ++ rest)))))
            from by
              rw [skipWs, if_pos (by decide), skipWs_not_ws (c := qmark) (by decide)]]
          simp only
          simp only [if_true]
          rw [show lbrace :: qmark :: (escStr k2 ++ (':' :: (' ' ::
              (dumps v2 ++ (dumpsO tl2 ++ rest))))) =
            dumps (JValue.obj (JObj.cons k2 v2 tl2)) ++ rest from by
              simp [dumps]]
          have hleny : (dumps (JValue.obj (JObj.cons k2 v2 tl2))).length < f := by
            have h1 := dumps_len_pos v
            have h2 := escStr_len_pos k
            simp [dumpsO] at hlen2
            simp [dumps]
            omega
          rw [ih f (by omega) (JValue.obj (JObj.cons k2 v2 tl2)) rest hleny hsep]

/-- The serializer/parser round trip: `json.loads(json.dumps(v))` recovers `v`. -/
theorem loads_dumps (v : JValue) : loads (dumps v) = some v := by
  unfold loads
  have h := parseVal_dumps ((dumps v).length + 1) v [] (by omega)
    (show sepHead [] from trivial)
  rw [List.append_nil] at h
  rw [h]
  simp [skipWs]

/-! ## `read_responses`: the incremental decode loop (benchmark.py:159-183)

The reader thread accumulates characters into `buffer` and, while the substring
`"Content-Length:"` occurs in the buffer, matches the regex
`Content-Length: (\d+)\r?\n\r?\n` with `re.search` (leftmost match), reads the
decimal length, and — when `len(buffer) >= match.end() + length` — slices the
body, advances the buffer past it, and `json.loads`-decodes it into the queue
(`except: pass` drops bodies that are not valid JSON).  The loop below is the
inner `while`; `read_responses` folds it over the chunks read from the pipe
(the script reads one character at a time, but the loop is chunk-agnostic). -/

/-- The literal `"Content-Length:"` used by the `in` containment test. -/
def inKey : List Char := "Content-Length:".data

/-- `startsWithL pat s`: `s` begins with `pat`. -/
def startsWithL : List Char → List Char → Bool
  | [], _ => true
  | _ :: _, [] => false
  | p :: ps, c :: cs => p == c && startsWithL ps cs

/-- Python's substring containment `pat in s`. -/
def containsSub (pat : List Char) : List Char → Bool
  | [] => startsWithL pat []
  | c :: tail => startsWithL pat (c :: tail) || containsSub pat tail

/-- The regex fragment `\r?\n` (with its backtracking semantics): consume one
line break and return the remainder, or fail. -/
def eatNL : List Char → Option (List Char)
  | '\x0d' :: '\n' :: r => some r
  | '\n' :: r => some r
  | _ => none

/-- Attempt to match the regex `Content-Length: (\d+)\r?\n\r?\n` anchored at the
head of `s`.  On success, returns the parsed decimal group and the remainder of
`s` after the match (`match.end()`). -/
def tryMatchAt (s : List Char) : Option (Nat × List Char) :=
  if startsWithL headerLit s then
    match takeDigits (s.drop headerLit.length) with
    | (ds, s2) =>
      if ds = [] then none
      else
        match eatNL s2 with
        | none => none
        | some s3 =>
          match eatNL s3 with
          | none => none
          | some s4 => some (parseNatD ds, s4)
  else none

/-- `re.search` of the header regex: the match at the leftmost position where one
exists, scanning left to right. -/
def reSearch : List Char → Option (Nat × List Char)
  | [] => none
  | c :: tail =>
    match tryMatchAt (c :: tail) with
    | some r => some r
    | none => reSearch tail

/-- The inner `while "Content-Length:" in buffer` loop of `read_responses`,
structural in a fuel argument (each frame consumed removes at least the header
from the buffer, so `buffer.length + 1` fuel always suffices; see
`decodeLoopF_fuel`).  `acc` models the messages put on `response_queue` so far,
in order. -/
def decodeLoopF : Nat → List Char → List JValue → List JValue × List Char
  | 0, buffer, acc => (acc, buffer)
  | fuel + 1, buffer, acc =>
    if containsSub inKey buffer then
      match reSearch buffer with
      | none => (acc, buffer)
      | some (length, rest) =>
        if length ≤ rest.length then
          match loads (rest.take length) with
          | some v => decodeLoopF fuel (rest.drop length) (acc ++ [v])
          | none => decodeLoopF fuel (rest.drop length) acc
        else (acc, buffer)
    else (acc, buffer)

/-- The decode loop at its sufficient fuel. -/
def decode_loop (buffer : List Char) (acc : List JValue) : List JValue × List Char :=
  decodeLoopF (buffer.length + 1) buffer acc

/-- `read_responses`, reading the stream as the given list of chunks: each chunk
is appended to the carried buffer and the decode loop is run; the first
component accumulates the decoded messages put on `response_queue`, in order.
(The script's outer loop reads one-character chunks; the stop event and
end-of-stream only decide when reading ceases, and do not affect the decoded
output for a given byte sequence.) -/
def read_responses (chunks : List (List Char)) : List JValue × List Char :=
  chunks.foldl (fun st chunk => decode_loop (st.2 ++ chunk) st.1) ([], [])

/-! ## Properties of the header matcher -/

theorem startsWithL_self_append : ∀ (p r : List Char), startsWithL p (p ++ r) = true := by
  intro p
  induction p with
  | nil => intro r; rfl
  | cons c cs ih => intro r; simp [startsWithL, ih r]

theorem startsWithL_append_of : ∀ (p s e : List Char), startsWithL p s = true →
    startsWithL p (s ++ e) = true := by
  intro p
  induction p with
  | nil => intro s e _; rfl
  | cons c cs ih =>
    intro s e h
    cases s with
    | nil => simp [startsWithL] at h
    | cons a t =>
      simp only [startsWithL, Bool.and_eq_true, beq_iff_eq] at h ⊢
      exact ⟨h.1, ih t e h.2⟩

theorem startsWithL_exists : ∀ (p s : List Char), startsWithL p s = true →
    ∃ r, s = p ++ r := by
  intro p
  induction p with
  | nil => intro s _; exact ⟨s, rfl⟩
  | cons c cs ih =>
    intro s h
    cases s with
    | nil => simp [startsWithL] at h
    | cons a t =>
      simp only [startsWithL, Bool.and_eq_true, beq_iff_eq] at h
      obtain ⟨r, hr⟩ := ih t h.2
      exact ⟨r, by simp [← h.1, hr]⟩

theorem startsWithL_nil_elim {p : List Char} (h : startsWithL p [] = true) : p = [] := by
  cases p with
  | nil => rfl
  | cons c cs => simp [startsWithL] at h

theorem containsSub_nil_pat : ∀ s : List Char, containsSub [] s = true := by
  intro s
  cases s with
  | nil => rfl
  | cons c t => simp [containsSub, startsWithL]

theorem containsSub_of_starts {pat s : List Char} (h : startsWithL pat s = true) :
    containsSub pat s = true := by
  cases s with
  | nil => rw [startsWithL_nil_elim h]; exact containsSub_nil_pat []
  | cons c t => simp [containsSub, h]

theorem containsSub_append : ∀ {s : List Char} (pat e : List Char),
    containsSub pat s = true → containsSub pat (s ++ e) = true := by
  intro s
  induction s with
  | nil =>
    intro pat e h
    simp only [containsSub] at h
    rw [startsWithL_nil_elim h]
    simp [containsSub_nil_pat]
  | cons c t ih =>
    intro pat e h
    simp only [containsSub, Bool.or_eq_true] at h ⊢
    rcases h with h | h
    · exact Or.inl (by simpa using startsWithL_append_of pat (c :: t) e h)
    · exact Or.inr (ih pat e h)

theorem takeDigits_split : ∀ {s ds r : List Char}, takeDigits s = (ds, r) →
    s = ds ++ r ∧ (∀ d ∈ ds, isDigitC d) ∧
      (r = [] ∨ ∃ c r1, r = c :: r1 ∧ isDigitC c = false) := by
  intro s
  induction s with
  | nil =>
    intro ds r h
    simp [takeDigits] at h
    obtain ⟨h1, h2⟩ := h
    subst h1
    subst h2
    simp
  | cons c t ih =>
    intro ds r h
    simp only [takeDigits] at h
    by_cases hc : isDigitC c
    · rw [if_pos hc] at h
      obtain ⟨ds1, r1, ht⟩ : ∃ a b, takeDigits t = (a, b) := ⟨_, _, rfl⟩
      rw [ht] at h
      obtain ⟨h1, h2⟩ := Prod.mk.injEq .. ▸ h
      obtain ⟨he, hall, hhead⟩ := ih ht
      subst h2
      rw [← h1]
      refine ⟨by simp [he], ?_, hhead⟩
      intro d hd
      rcases List.mem_cons.1 hd with rfl | hd
      · exact hc
      · exact hall d hd
    · rw [if_neg hc] at h
      obtain ⟨h1, h2⟩ := Prod.mk.injEq .. ▸ h
      subst h1
      refine ⟨by simp [← h2], by simp, Or.inr ⟨c, t, h2.symm, by simpa using hc⟩⟩

theorem takeDigits_construct : ∀ (ds r : List Char), (∀ d ∈ ds, isDigitC d) →
    (r = [] ∨ ∃ c r1, r = c :: r1 ∧ isDigitC c = false) →
    takeDigits (ds ++ r) = (ds, r) := by
  intro ds
  induction ds with
  | nil =>
    intro r _ hr
    rcases hr with rfl | ⟨c, r1, rfl, hc⟩
    · rfl
    · simp [takeDigits, hc]
  | cons d ds ih =>
    intro r hall hr
    simp only [List.cons_append, takeDigits]
    rw [if_pos (hall d (by simp))]
    simp only [List.append_eq, ih r (fun x hx => hall x (by simp [hx])) hr]

theorem eatNL_split : ∀ {s r : List Char}, eatNL s = some r →
    s = '\x0d' :: '\n' :: r ∨ s = '\n' :: r := by
  intro s r h
  unfold eatNL at h
  split at h
  · simp at h; simp [h]
  · simp at h; simp [h]
  · simp at h

theorem eatNL_crlf (r : List Char) : eatNL ('\x0d' :: '\n' :: r) = some r := rfl

theorem eatNL_lf_of_ne {c : Char} (r : List Char) (h : c = '\n') :
    eatNL (c :: r) = some r := by
  subst h
  rfl

/-- The four concrete line-break pairs `(\r?\n){2}` can consume. -/
def nlShape (nls : List Char) : Prop :=
  nls = ['\x0d', '\n', '\x0d', '\n'] ∨ nls = ['\x0d', '\n', '\n'] ∨
    nls = ['\n', '\x0d', '\n'] ∨ nls = ['\n', '\n']

theorem eatNL2_of_nlShape {nls : List Char} (h : nlShape nls) (r : List Char) :
    ∃ s3, eatNL (nls ++ r) = some s3 ∧ eatNL s3 = some r := by
  rcases h with rfl | rfl | rfl | rfl
  · exact ⟨'\x0d' :: '\n' :: r, rfl, rfl⟩
  · exact ⟨'\n' :: r, rfl, rfl⟩
  · exact ⟨'\x0d' :: '\n' :: r, rfl, rfl⟩
  · exact ⟨'\n' :: r, rfl, rfl⟩

theorem nlShape_head_not_digit {nls : List Char} (h : nlShape nls) :
    ∃ c r1, nls = c :: r1 ∧ isDigitC c = false := by
  rcases h with rfl | rfl | rfl | rfl
  · exact ⟨_, _, rfl, by decide⟩
  · exact ⟨_, _, rfl, by decide⟩
  · exact ⟨_, _, rfl, by decide⟩
  · exact ⟨_, _, rfl, by decide⟩

/-- Matching succeeds on any text of the exact shape the regex describes. -/
theorem tryMatchAt_construct {ds nls : List Char} (r : List Char)
    (hds : ds ≠ []) (hall : ∀ d ∈ ds, isDigitC d) (hnl : nlShape nls) :
    tryMatchAt (headerLit ++ (ds ++ (nls ++ r))) = some (parseNatD ds, r) := by
  unfold tryMatchAt
  rw [if_pos (startsWithL_self_append headerLit _)]
  rw [List.drop_left]
  obtain ⟨c, r1, hc, hcd⟩ := nlShape_head_not_digit hnl
  rw [show ds ++ (nls ++ r) = ds ++ (nls ++ r) from rfl]
  rw [takeDigits_construct ds (nls ++ r) hall
    (Or.inr ⟨c, r1 ++ r, by simp [hc], hcd⟩)]
  simp only
  rw [if_neg hds]
  obtain ⟨s3, h1, h2⟩ := eatNL2_of_nlShape hnl r
  rw [h1]
  simp only [h2]

/-- Decomposition of a successful match. -/
theorem tryMatchAt_shape {s : List Char} {n : Nat} {rest : List Char}
    (h : tryMatchAt s = some (n, rest)) :
    ∃ ds nls, s = headerLit ++ (ds ++ (nls ++ rest)) ∧ ds ≠ [] ∧
      (∀ d ∈ ds, isDigitC d) ∧ nlShape nls ∧ n = parseNatD ds := by
  unfold tryMatchAt at h
  split at h
  · rename_i hsw
    obtain ⟨r0, hr0⟩ := startsWithL_exists headerLit s hsw
    rw [hr0, List.drop_left] at h
    obtain ⟨ds, s2, hts⟩ : ∃ a b, takeDigits r0 = (a, b) := ⟨_, _, rfl⟩
    rw [hts] at h
    simp only at h
    obtain ⟨hsplit, hall, _⟩ := takeDigits_split hts
    by_cases hds : ds = []
    · rw [if_pos hds] at h
      exact absurd h (by simp)
    · rw [if_neg hds] at h
      cases h1 : eatNL s2 with
      | none => rw [h1] at h; exact absurd h (by simp)
      | some s3 =>
        rw [h1] at h
        simp only at h
        cases h2 : eatNL s3 with
        | none => rw [h2] at h; exact absurd h (by simp)
        | some s4 =>
          rw [h2] at h
          simp only [Option.some.injEq, Prod.mk.injEq] at h
          obtain ⟨hn, hs4⟩ := h
          subst hs4
          rcases eatNL_split h1 with he1 | he1 <;> rcases eatNL_split h2 with he2 | he2
          · exact ⟨ds, ['\x0d', '\n', '\x0d', '\n'],
              by rw [hr0, hsplit, he1, he2]; simp, hds, hall, Or.inl rfl, hn.symm⟩
          · exact ⟨ds, ['\x0d', '\n', '\n'],
              by rw [hr0, hsplit, he1, he2]; simp, hds, hall, Or.inr (Or.inl rfl), hn.symm⟩
          · exact ⟨ds, ['\n', '\x0d', '\n'],
              by rw [hr0, hsplit, he1, he2]; simp, hds, hall,
                Or.inr (Or.inr (Or.inl rfl)), hn.symm⟩
          · exact ⟨ds, ['\n', '\n'],
              by rw [hr0, hsplit, he1, he2]; simp, hds, hall,
                Or.inr (Or.inr (Or.inr rfl)), hn.symm⟩
  · exact absurd h (by simp)

theorem tryMatchAt_stable {s : List Char} {n : Nat} {rest : List Char} (e : List Char)
    (h : tryMatchAt s = some (n, rest)) :
    tryMatchAt (s ++ e) = some (n, rest ++ e) := by
  obtain ⟨ds, nls, hs, hds, hall, hnl, hn⟩ := tryMatchAt_shape h
  subst hn
  rw [hs]
  simp only [List.append_assoc]
  exact tryMatchAt_construct (rest ++ e) hds hall hnl

theorem tryMatchAt_head_C {s : List Char} {r : Nat × List Char}
    (h : tryMatchAt s = some r) : ∃ t, s = 'C' :: t := by
  obtain ⟨n, rest⟩ := r
  obtain ⟨ds, nls, hs, _, _, _, _⟩ := tryMatchAt_shape h
  exact ⟨"ontent-Length: ".data ++ (ds ++ (nls ++ rest)), by rw [hs]; rfl⟩

theorem tryMatchAt_ne_C {c : Char} {t : List Char} (hc : c ≠ 'C') :
    tryMatchAt (c :: t) = none := by
  cases h : tryMatchAt (c :: t) with
  | none => rfl
  | some r =>
    obtain ⟨t2, ht⟩ := tryMatchAt_head_C h
    exact absurd (List.cons.injEq .. ▸ ht).1 hc

theorem reSearch_of_tryMatch {s : List Char} {r : Nat × List Char}
    (h : tryMatchAt s = some r) : reSearch s = some r := by
  cases s with
  | nil => simp [tryMatchAt, startsWithL, headerLit] at h
  | cons c t => simp [reSearch, h]

theorem reSearch_exists {t : List Char} {r : Nat × List Char} (h : reSearch t = some r) :
    ∃ t1 t2, t = t1 ++ t2 ∧ tryMatchAt t2 = some r := by
  induction t with
  | nil => simp [reSearch] at h
  | cons c tail ih =>
    rw [reSearch] at h
    cases h1 : tryMatchAt (c :: tail) with
    | some r1 =>
      rw [h1] at h
      simp only [Option.some.injEq] at h
      exact ⟨[], c :: tail, rfl, by rw [h1, h]⟩
    | none =>
      rw [h1] at h
      simp only at h
      obtain ⟨t1, t2, ht, hm⟩ := ih h
      exact ⟨c :: t1, t2, by simp [ht], hm⟩

/-- "ontent-Length: " (the header literal without its leading `C`) contains no `C`,
and neither do digit runs or line breaks; so no successful match can begin strictly
inside the span another match attempt has consumed.  This is the key fact behind
the stability of `re.search` under extension of the buffer. -/
theorem no_C_in_shape {ds nls : List Char} (hall : ∀ d ∈ ds, isDigitC d)
    (hnl : nlShape nls) (j : Nat) (hj1 : 1 ≤ j) :
    (headerLit ++ (ds ++ nls))[j]? ≠ some 'C' := by
  intro hC
  have hmem : 'C' ∈ (headerLit ++ (ds ++ nls)).drop 1 := by
    have h1 : (headerLit ++ (ds ++ nls))[j]? = ((headerLit ++ (ds ++ nls)).drop 1)[j - 1]? := by
      rw [List.getElem?_drop]
      congr 1
      omega
    rw [h1] at hC
    exact List.getElem?_mem hC
  have hd1 : (headerLit ++ (ds ++ nls)).drop 1 = "ontent-Length: ".data ++ (ds ++ nls) := rfl
  rw [hd1] at hmem
  rcases List.mem_append.1 hmem with hm | hm
  · revert hm; decide
  rcases List.mem_append.1 hm with hm | hm
  · have := hall 'C' hm
    revert this; decide
  · rcases hnl with rfl | rfl | rfl | rfl <;> revert hm <;> decide

/-- If a match attempt at the head of `s` fails while a complete match exists
strictly inside `s`, then the head attempt fails on every extension of `s`. -/
theorem tryMatchAt_none_extend {c : Char} {tail e : List Char} {r : Nat × List Char}
    (h1 : tryMatchAt (c :: tail) = none) (h2 : reSearch tail = some r) :
    tryMatchAt ((c :: tail) ++ e) = none := by
  cases hm : tryMatchAt ((c :: tail) ++ e) with
  | none => rfl
  | some r2 =>
    exfalso
    obtain ⟨n2, rest2⟩ := r2
    obtain ⟨ds, nls, hs, hds, hall, hnl, _⟩ := tryMatchAt_shape hm
    rw [show headerLit ++ (ds ++ (nls ++ rest2)) = (headerLit ++ (ds ++ nls)) ++ rest2 from by
      simp [List.append_assoc]] at hs
    set P := headerLit ++ (ds ++ nls) with hP
    by_cases hfit : P.length ≤ (c :: tail).length
    · -- the whole match lies inside `c :: tail`: contradicts `h1`
      have htake : P = (c :: tail).take P.length := by
        have h3 := congrArg (List.take P.length) hs
        rw [List.take_append_of_le_length hfit, List.take_left] at h3
        exact h3.symm
      set Q := (c :: tail).drop P.length with hQ
      have hsplit : c :: tail = P ++ Q := by
        conv_lhs => rw [← List.take_append_drop P.length (c :: tail)]
        rw [← htake]
      have htm : tryMatchAt (c :: tail) = some (parseNatD ds, Q) := by
        rw [hsplit, hP]
        simp only [List.append_assoc]
        exact tryMatchAt_construct Q hds hall hnl
      rw [htm] at h1
      exact absurd h1 (by simp)
    · -- the match runs past `c :: tail`, yet a complete match starts inside it
      obtain ⟨t1, t2, ht, hmt⟩ := reSearch_exists h2
      obtain ⟨t3, ht3⟩ := tryMatchAt_head_C hmt
      have hidx : ((c :: tail) ++ e)[t1.length + 1]? = some 'C' := by
        rw [show (c :: tail) ++ e = c :: (t1 ++ (t2 ++ e)) from by simp [ht]]
        rw [List.getElem?_cons_succ]
        rw [List.getElem?_append_right (le_refl t1.length)]
        simp [ht3]
      have hlen2 : t1.length + 1 < P.length := by
        have htl : tail.length = t1.length + t2.length := by simp [ht]
        have ht2len : 1 ≤ t2.length := by rw [ht3]; simp
        simp only [List.length_cons] at hfit
        omega
      rw [hs] at hidx
      rw [List.getElem?_append_left (by omega)] at hidx
      exact no_C_in_shape hall hnl (t1.length + 1) (by omega) hidx

theorem reSearch_stable : ∀ {s : List Char} {n : Nat} {rest : List Char} (e : List Char),
    reSearch s = some (n, rest) → reSearch (s ++ e) = some (n, rest ++ e) := by
  intro s
  induction s with
  | nil => intro n rest e h; simp [reSearch] at h
  | cons c tail ih =>
    intro n rest e h
    rw [reSearch] at h
    cases h1 : tryMatchAt (c :: tail) with
    | some r1 =>
      rw [h1] at h
      simp only [Option.some.injEq] at h
      subst h
      exact reSearch_of_tryMatch (tryMatchAt_stable e h1)
    | none =>
      rw [h1] at h
      simp only at h
      have hnone := tryMatchAt_none_extend (e := e) h1 h
      rw [show (c :: tail) ++ e = c :: (tail ++ e) from rfl] at hnone
      rw [show (c :: tail) ++ e = c :: (tail ++ e) from rfl, reSearch, hnone]
      simp only
      exact ih e h

theorem reSearch_shrink : ∀ {s : List Char} {n : Nat} {rest : List Char},
    reSearch s = some (n, rest) → rest.length + 19 ≤ s.length := by
  intro s
  induction s with
  | nil => intro n rest h; simp [reSearch] at h
  | cons c tail ih =>
    intro n rest h
    rw [reSearch] at h
    cases h1 : tryMatchAt (c :: tail) with
    | some r1 =>
      rw [h1] at h
      simp only [Option.some.injEq] at h
      subst h
      obtain ⟨ds, nls, hs, hds, _, hnl, _⟩ := tryMatchAt_shape h1
      have hlds : 1 ≤ ds.length := by
        cases ds with
        | nil => exact absurd rfl hds
        | cons a b => simp
      have hlnl : 2 ≤ nls.length := by
        rcases hnl with rfl | rfl | rfl | rfl <;> simp
      have hlen := congrArg List.length hs
      simp only [List.length_cons, List.length_append] at hlen
      have hhl : headerLit.length = 16 := by decide
      simp only [List.length_cons]
      omega
    | none =>
      rw [h1] at h
      simp only at h
      have := ih h
      simp
      omega

/-! ## The decode loop: fuel irrelevance and chunking invariance -/

theorem decodeLoopF_nil (fuel : Nat) (acc : List JValue) :
    decodeLoopF fuel [] acc = (acc, []) := by
  cases fuel with
  | zero => rfl
  | succ g => rw [decodeLoopF, if_neg (by decide)]

theorem decodeLoopF_shrink : ∀ (fuel : Nat) (b : List Char) (acc : List JValue),
    (decodeLoopF fuel b acc).2.length ≤ b.length := by
  intro fuel
  induction fuel with
  | zero => intro b acc; simp [decodeLoopF]
  | succ fuel ih =>
    intro b acc
    rw [decodeLoopF]
    split
    · cases hr : reSearch b with
      | none => simp
      | some r =>
        obtain ⟨n, rest⟩ := r
        simp only
        split
        · have hs := reSearch_shrink hr
          have hd : (rest.drop n).length ≤ b.length := by simp; omega
          cases hl : loads (rest.take n)
          · simp only
            exact le_trans (ih _ _) hd
          · simp only
            exact le_trans (ih _ _) hd
        · simp
    · simp

theorem decodeLoopF_mono : ∀ (k f1 f2 : Nat) (b : List Char) (acc : List JValue),
    b.length ≤ k → b.length < f1 → b.length < f2 →
    decodeLoopF f1 b acc = decodeLoopF f2 b acc := by
  intro k
  induction k using Nat.strong_induction_on with
  | _ k ih =>
    intro f1 f2 b acc hk h1 h2
    obtain ⟨g1, rfl⟩ : ∃ g, f1 = g + 1 := ⟨f1 - 1, by omega⟩
    obtain ⟨g2, rfl⟩ : ∃ g, f2 = g + 1 := ⟨f2 - 1, by omega⟩
    rw [decodeLoopF]
    conv_rhs => rw [decodeLoopF]
    by_cases hc : containsSub inKey b
    · rw [if_pos hc, if_pos hc]
      cases hr : reSearch b with
      | none => simp
      | some r =>
        obtain ⟨n, rest⟩ := r
        simp only
        by_cases hn : n ≤ rest.length
        · rw [if_pos hn, if_pos hn]
          have hs := reSearch_shrink hr
          have hlt : (rest.drop n).length < k := by simp; omega
          have hg1 : (rest.drop n).length < g1 := by simp; omega
          have hg2 : (rest.drop n).length < g2 := by simp; omega
          cases hl : loads (rest.take n)
          · simp only
            exact ih (rest.drop n).length (by omega) g1 g2 _ _ (le_refl _) hg1 hg2
          · simp only
            exact ih (rest.drop n).length (by omega) g1 g2 _ _ (le_refl _) hg1 hg2
        · rw [if_neg hn, if_neg hn]
    · rw [if_neg hc, if_neg hc]

/-- The loop's result is quiescent: running the loop again on the final buffer
changes nothing (when the original run had enough fuel to reach a real break). -/
theorem decodeLoopF_runout : ∀ (fuel : Nat) (b : List Char) (acc : List JValue),
    b.length < fuel → ∀ f2,
    decodeLoopF f2 (decodeLoopF fuel b acc).2 (decodeLoopF fuel b acc).1 =
      decodeLoopF fuel b acc := by
  intro fuel
  induction fuel with
  | zero => omega
  | succ fuel ih =>
    intro b acc hfb f2
    rw [decodeLoopF]
    by_cases hc : containsSub inKey b
    · rw [if_pos hc]
      cases hr : reSearch b with
      | none =>
        simp only
        cases f2 with
        | zero => rfl
        | succ g2 => rw [decodeLoopF, if_pos hc, hr]
      | some r =>
        obtain ⟨n, rest⟩ := r
        simp only
        by_cases hn : n ≤ rest.length
        · rw [if_pos hn]
          have hs := reSearch_shrink hr
          have hlt : (rest.drop n).length < fuel := by simp; omega
          cases hl : loads (rest.take n)
          · simp only
            exact ih _ _ hlt f2
          · simp only
            exact ih _ _ hlt f2
        · rw [if_neg hn]
          cases f2 with
          | zero => rfl
          | succ g2 =>
            rw [decodeLoopF, if_pos hc, hr]
            simp only
            rw [if_neg hn]
    · rw [if_neg hc]
      cases f2 with
      | zero => rfl
      | succ g2 => rw [decodeLoopF, if_neg hc]

/-- Chunking invariance, fuel form: processing `b` to quiescence and then appending
`e` gives the same outcome as processing `b ++ e`. -/
theorem decodeLoopF_append : ∀ (f : Nat) (b e : List Char) (acc : List JValue),
    b.length + e.length < f →
    decodeLoopF f (b ++ e) acc =
      decodeLoopF f ((decodeLoopF f b acc).2 ++ e) (decodeLoopF f b acc).1 := by
  intro f
  induction f using Nat.strong_induction_on with
  | _ f ihf =>
    intro b e acc hlen
    obtain ⟨g, rfl⟩ : ∃ g, f = g + 1 := ⟨f - 1, by omega⟩
    by_cases hc : containsSub inKey b
    · cases hr : reSearch b with
      | none =>
        have hb : decodeLoopF (g + 1) b acc = (acc, b) := by
          rw [decodeLoopF, if_pos hc, hr]
        rw [hb]
      | some r =>
        obtain ⟨n, rest⟩ := r
        by_cases hn : n ≤ rest.length
        · have hs := reSearch_shrink hr
          have hstep : decodeLoopF (g + 1) b acc =
              (match loads (rest.take n) with
                | some v => decodeLoopF g (rest.drop n) (acc ++ [v])
                | none => decodeLoopF g (rest.drop n) acc) := by
            rw [decodeLoopF, if_pos hc, hr]
            simp only
            rw [if_pos hn]
          have hstepE : decodeLoopF (g + 1) (b ++ e) acc =
              (match loads (rest.take n) with
                | some v => decodeLoopF g (rest.drop n ++ e) (acc ++ [v])
                | none => decodeLoopF g (rest.drop n ++ e) acc) := by
            rw [decodeLoopF, if_pos (containsSub_append inKey e hc),
              reSearch_stable e hr]
            simp only
            rw [if_pos (by simp; omega)]
            rw [List.take_append_of_le_length hn, List.drop_append_of_le_length hn]
          have hfuel2 : (rest.drop n).length + e.length < g := by simp; omega
          cases hl : loads (rest.take n) with
          | none =>
            rw [hstep, hstepE, hl]
            simp only
            rw [ihf g (by omega) _ e _ hfuel2]
            have hsh := decodeLoopF_shrink g (rest.drop n) acc
            have hmono := decodeLoopF_mono ((decodeLoopF g (rest.drop n) acc).2.length + e.length)
              g (g + 1) ((decodeLoopF g (rest.drop n) acc).2 ++ e)
              (decodeLoopF g (rest.drop n) acc).1 (by simp) (by simp; simp at hsh hfuel2; omega)
              (by simp; simp at hsh hfuel2; omega)
            rw [hmono]
          | some v =>
            rw [hstep, hstepE, hl]
            simp only
            rw [ihf g (by omega) _ e _ hfuel2]
            have hsh := decodeLoopF_shrink g (rest.drop n) (acc ++ [v])
            have hmono := decodeLoopF_mono
              ((decodeLoopF g (rest.drop n) (acc ++ [v])).2.length + e.length)
              g (g + 1) ((decodeLoopF g (rest.drop n) (acc ++ [v])).2 ++ e)
              (decodeLoopF g (rest.drop n) (acc ++ [v])).1 (by simp)
              (by simp; simp at hsh hfuel2; omega) (by simp; simp at hsh hfuel2; omega)
            rw [hmono]
        · have hb : decodeLoopF (g + 1) b acc = (acc, b) := by
            rw [decodeLoopF, if_pos hc, hr]
            simp only
            rw [if_neg hn]
          rw [hb]
    · have hb : decodeLoopF (g + 1) b acc = (acc, b) := by
        rw [decodeLoopF, if_neg hc]
      rw [hb]

theorem decode_loop_runout (b : List Char) (acc : List JValue) :
    decode_loop (decode_loop b acc).2 (decode_loop b acc).1 = decode_loop b acc := by
  unfold decode_loop
  exact decodeLoopF_runout (b.length + 1) b acc (by omega) _

theorem decode_loop_append (b e : List Char) (acc : List JValue) :
    decode_loop (b ++ e) acc =
      decode_loop ((decode_loop b acc).2 ++ e) (decode_loop b acc).1 := by
  have hsh : (decodeLoopF (b.length + 1) b acc).2.length ≤ b.length :=
    decodeLoopF_shrink _ _ _
  unfold decode_loop
  have h1 : decodeLoopF ((b ++ e).length + 1) (b ++ e) acc =
      decodeLoopF (b.length + e.length + 1) (b ++ e) acc :=
    decodeLoopF_mono (b ++ e).length _ _ _ _ (le_refl _) (by omega) (by simp)
  have h2 : decodeLoopF (b.length + e.length + 1) b acc =
      decodeLoopF (b.length + 1) b acc :=
    decodeLoopF_mono b.length _ _ _ _ (le_refl _) (by omega) (by omega)
  have h3 := decodeLoopF_append (b.length + e.length + 1) b e acc (by omega)
  rw [h1, h3, h2]
  exact decodeLoopF_mono ((decodeLoopF (b.length + 1) b acc).2 ++ e).length _ _ _ _
    (le_refl _) (by simp; omega) (by omega)

theorem read_responses_foldl : ∀ (chunks : List (List Char)) (ms : List JValue)
    (buf : List Char), decode_loop buf ms = (ms, buf) →
    chunks.foldl (fun st chunk => decode_loop (st.2 ++ chunk) st.1) (ms, buf) =
      decode_loop (buf ++ chunks.flatten) ms := by
  intro chunks
  induction chunks with
  | nil =>
    intro ms buf hq
    simpa using hq.symm
  | cons c cs ih =>
    intro ms buf hq
    have hrun := decode_loop_runout (buf ++ c) ms
    have hih := ih (decode_loop (buf ++ c) ms).1 (decode_loop (buf ++ c) ms).2
      (by rw [hrun])
    rw [show buf ++ List.flatten (c :: cs) = (buf ++ c) ++ List.flatten cs from by
      simp [List.append_assoc]]
    rw [decode_loop_append (buf ++ c) (List.flatten cs) ms]
    rw [← hih]
    simp only [List.foldl_cons]

/-- `read_responses` is chunking-invariant: decoding any chunking of the byte
stream equals the batch decode of the concatenated stream. -/
theorem read_responses_eq_join (chunks : List (List Char)) :
    read_responses chunks = decode_loop chunks.flatten [] := by
  unfold read_responses
  have h := read_responses_foldl chunks [] [] (by decide)
  simpa using h

/-! ## Decoding a well-formed frame -/

theorem reSearch_frame (content rest : List Char) :
    reSearch (frame content ++ rest) = some (content.length, content ++ rest) := by
  have h := @tryMatchAt_construct (natDigits content.length) crlfcrlf (content ++ rest)
    (natDigits_ne_nil _) (natDigits_all_digits _) (Or.inl rfl)
  rw [parseNatD_natDigits] at h
  apply reSearch_of_tryMatch
  rw [show frame content ++ rest =
    headerLit ++ (natDigits content.length ++ (crlfcrlf ++ (content ++ rest))) from by
      simp [frame, List.append_assoc]]
  exact h

theorem headerLit_inKey : headerLit = inKey ++ [' '] := by decide

theorem decodeLoopF_frame (g : Nat) (content rest : List Char) (acc : List JValue) :
    decodeLoopF (g + 1) (frame content ++ rest) acc =
      match loads content with
      | some v => decodeLoopF g rest (acc ++ [v])
      | none => decodeLoopF g rest acc := by
  rw [decodeLoopF]
  have hsw : startsWithL inKey (frame content ++ rest) = true := by
    rw [show frame content ++ rest =
      inKey ++ ([' '] ++ (natDigits content.length ++ (crlfcrlf ++ (content ++ rest))))
      from by simp [frame, headerLit_inKey, List.append_assoc]]
    exact startsWithL_self_append _ _
  rw [if_pos (containsSub_of_starts hsw)]
  rw [reSearch_frame content rest]
  simp only
  rw [if_pos (by simp)]
  rw [List.take_left, List.drop_left]

theorem decode_loop_nil (acc : List JValue) : decode_loop [] acc = (acc, []) :=
  decodeLoopF_nil 1 acc

theorem decode_loop_frame (content rest : List Char) (acc : List JValue) :
    decode_loop (frame content ++ rest) acc =
      match loads content with
      | some v => decode_loop rest (acc ++ [v])
      | none => decode_loop rest acc := by
  unfold decode_loop
  rw [decodeLoopF_frame]
  have hnd : 1 ≤ (natDigits content.length).length :=
    List.length_pos.mpr (natDigits_ne_nil _)
  have hlen : rest.length < (frame content ++ rest).length := by
    simp [frame]
    omega
  cases loads content with
  | none =>
    exact decodeLoopF_mono rest.length _ _ rest acc (le_refl _) hlen (by omega)
  | some v =>
    exact decodeLoopF_mono rest.length _ _ rest (acc ++ [v]) (le_refl _) hlen (by omega)

theorem decode_loop_encode (m : JValue) (rest : List Char) (acc : List JValue) :
    decode_loop (encode_lsp m ++ rest) acc = decode_loop rest (acc ++ [m]) := by
  unfold encode_lsp
  rw [decode_loop_frame, loads_dumps]

theorem decode_loop_encode_nil (m : JValue) (acc : List JValue) :
    decode_loop (encode_lsp m) acc = (acc ++ [m], []) := by
  rw [show encode_lsp m = encode_lsp m ++ [] from (List.append_nil _).symm,
    decode_loop_encode, decode_loop_nil]

/-! ## The message router: `wait_for_response`

test_refs.py:45-54 (test_workspace.py:45-58 is identical except for printing
notifications).  The queue's behaviour over time is modelled as a schedule of
observations, one per `q.get(timeout=1)` call: `some r` means a message was
available within the 1-second poll (its time cost is counted as 0), `none`
means the call raised `queue.Empty` after its 1-second timeout (time cost 1
tick).  An exhausted schedule behaves as a forever-empty queue.  The function
returns the value `wait_for_response` returns together with the remaining
queue contents. -/

/-- Python's `dict.get` on a decoded JSON object.  `json.loads` builds the dict
by successive assignment, so a repeated key keeps its last value.  The scripts
only call `.get` on dict messages (a non-dict would raise `AttributeError`,
outside the modelled scope), so `jget` is only applied to `.obj` values in the
theorems below. -/
def jgetO : JObj → List Char → Option JValue
  | .nil, _ => none
  | .cons k v tl, key =>
    match jgetO tl key with
    | some w => some w
    | none => if k = key then some v else none

def jget : JValue → List Char → Option JValue
  | .obj kvs, key => jgetO kvs key
  | _, _ => none

def isObj : JValue → Bool
  | .obj _ => true
  | _ => false

/-- The string key `"id"`. -/
def idKey : List Char := "id".data

/-- Python's `r.get("id") == id` for an integer request id `n`: the decoded
value (or `None` when the key is missing) compared with `n`.  Python compares
`True == 1` and `False == 0` as equal; `None`, strings, lists and dicts are
never equal to an int. -/
def pyEqInt : Option JValue → Int → Bool
  | some (.int m), n => m == n
  | some (.bool true), n => n == 1
  | some (.bool false), n => n == 0
  | _, _ => false

/-- The `while time.time() - start < timeout` loop, structural in a fuel
argument.  Each iteration either consumes one schedule entry (a delivered
message) or one time tick (an empty poll), so `timeout + sched.length` fuel
always suffices. -/
def wait_for_responseF : Nat → Nat → Nat → Int → List (Option JValue) →
    Option JValue × List (Option JValue)
  | 0, _, _, _, sched => (none, sched)
  | fuel + 1, elapsed, timeout, idv, [] =>
    if elapsed < timeout then wait_for_responseF fuel (elapsed + 1) timeout idv []
    else (none, [])
  | fuel + 1, elapsed, timeout, idv, none :: tl =>
    if elapsed < timeout then wait_for_responseF fuel (elapsed + 1) timeout idv tl
    else (none, none :: tl)
  | fuel + 1, elapsed, timeout, idv, some r :: tl =>
    if elapsed < timeout then
      if pyEqInt (jget r idKey) idv = true then (some r, tl)
      else wait_for_responseF fuel elapsed timeout idv tl
    else (none, some r :: tl)

/-- `wait_for_response(q, id, timeout)` from test_refs.py:45-54, started at
elapsed time 0 against the queue schedule `sched`. -/
def wait_for_response (sched : List (Option JValue)) (idv : Int) (timeout : Nat) :
    Option JValue × List (Option JValue) :=
  wait_for_responseF (timeout + sched.length) 0 timeout idv sched

theorem wait_for_responseF_none : ∀ (fuel elapsed timeout : Nat) (idv : Int)
    (sched : List (Option JValue)),
    (∀ r, some r ∈ sched → pyEqInt (jget r idKey) idv = false) →
    (wait_for_responseF fuel elapsed timeout idv sched).1 = none := by
  intro fuel
  induction fuel with
  | zero => intro _ _ _ _ _; rfl
  | succ g ih =>
    intro elapsed timeout idv sched h
    cases sched with
    | nil =>
      rw [wait_for_responseF]
      by_cases he : elapsed < timeout
      · rw [if_pos he]; exact ih _ _ _ [] (by simp)
      · rw [if_neg he]
    | cons x tl =>
      cases x with
      | none =>
        rw [wait_for_responseF]
        by_cases he : elapsed < timeout
        · rw [if_pos he]; exact ih _ _ _ tl (fun r hr => h r (by simp [hr]))
        · rw [if_neg he]
      | some m =>
        rw [wait_for_responseF]
        by_cases he : elapsed < timeout
        · rw [if_pos he, if_neg (by rw [h m (by simp)]; simp)]
          exact ih _ _ _ tl (fun r hr => h r (by simp [hr]))
        · rw [if_neg he]

theorem wait_for_responseF_skip : ∀ (pre : List (Option JValue))
    (fuel elapsed timeout : Nat) (idv : Int) (r : JValue) (post : List (Option JValue)),
    (∀ x, some x ∈ pre → pyEqInt (jget x idKey) idv = false) →
    elapsed + pre.length < timeout → pre.length < fuel →
    pyEqInt (jget r idKey) idv = true →
    wait_for_responseF fuel elapsed timeout idv (pre ++ some r :: post) = (some r, post) := by
  intro pre
  induction pre with
  | nil =>
    intro fuel elapsed timeout idv r post _ ht hf hr
    obtain ⟨g, rfl⟩ : ∃ g, fuel = g + 1 := ⟨fuel - 1, by omega⟩
    simp only [List.nil_append]
    rw [wait_for_responseF, if_pos (by simp at ht; omega), if_pos hr]
  | cons x xs ih =>
    intro fuel elapsed timeout idv r post hpre ht hf hr
    obtain ⟨g, rfl⟩ : ∃ g, fuel = g + 1 := ⟨fuel - 1, by omega⟩
    simp only [List.cons_append]
    cases x with
    | none =>
      rw [wait_for_responseF, if_pos (by simp at ht; omega)]
      exact ih g (elapsed + 1) timeout idv r post
        (fun y hy => hpre y (by simp [hy])) (by simp at ht ⊢; omega)
        (by simp at hf; omega) hr
    | some m =>
      rw [wait_for_responseF, if_pos (by simp at ht; omega),
        if_neg (by rw [hpre m (by simp)]; simp)]
      exact ih g elapsed timeout idv r post
        (fun y hy => hpre y (by simp [hy])) (by simp at ht ⊢; omega)
        (by simp at hf; omega) hr

/-! ## The timing harness: `print_results`

benchmark.py:335-348.  `benchmark_lsp` appends, per operation, either a
measured duration or `float('inf')` on timeout (benchmark.py:255-318); a
sample is modelled as `Option Rat` with `none` standing for `float('inf')`.
For each operation, `print_results` filters out the `inf` entries and prints
`avg`/`min`/`max` of the survivors, or a bare `TIMEOUT/ERROR` marker when none
survive; the printed record is modelled by `print_results_line`. -/

/-- `valid_times = [t for t in times if t != float('inf')]`. -/
def valid_times (times : List (Option Rat)) : List Rat := times.filterMap id

/-- The numbers of one printed line: `avg`, `min`, `max` over the surviving
samples. -/
structure OpReport where
  avg : Rat
  min_t : Rat
  max_t : Rat
deriving DecidableEq

/-- The per-operation output of `print_results`: `none` models the
`TIMEOUT/ERROR` line, `some` the `avg=…  min=…  max=…` line.  No other datum
appears in the output. -/
def print_results_line (times : List (Option Rat)) : Option OpReport :=
  match valid_times times with
  | [] => none
  | t :: ts => some ⟨((t :: ts).sum) / ((t :: ts).length : Rat), ts.foldl min t, ts.foldl max t⟩

/-- The number of timed-out samples among `times` (never computed by
`print_results`). -/
def failCount (times : List (Option Rat)) : Nat :=
  times.countP (fun t => t.isNone)

/-! ## Skipping a malformed header -/

/-- A header whose `Content-Length` value is not a decimal number:
`"Content-Length: abc\r\n\r\n"`. -/
def malHeader : List Char := headerLit ++ ("abc".data ++ crlfcrlf)

theorem tryMatchAt_nonDigit {c : Char} (hc : isDigitC c = false) (r : List Char) :
    tryMatchAt (headerLit ++ (c :: r)) = none := by
  unfold tryMatchAt
  rw [if_pos (startsWithL_self_append _ _), List.drop_left]
  rw [show c :: r = [] ++ (c :: r) from rfl,
    takeDigits_construct [] (c :: r) (by simp) (Or.inr ⟨c, r, rfl, hc⟩)]
  simp

theorem reSearch_skip_no_C : ∀ (t s : List Char), (∀ c ∈ t, c ≠ 'C') →
    reSearch (t ++ s) = reSearch s := by
  intro t
  induction t with
  | nil => intro s _; rfl
  | cons c t ih =>
    intro s h
    rw [List.cons_append, reSearch, tryMatchAt_ne_C (h c (by simp))]
    exact ih s (fun d hd => h d (by simp [hd]))

theorem reSearch_mal (s : List Char) : reSearch (malHeader ++ s) = reSearch s := by
  have h1 : malHeader ++ s = 'C' :: ("ontent-Length: abc".data ++ (crlfcrlf ++ s)) := by
    rw [show malHeader = 'C' :: ("ontent-Length: abc".data ++ crlfcrlf) from by decide]
    simp [List.append_assoc]
  have h2 : ('C' : Char) :: ("ontent-Length: abc".data ++ (crlfcrlf ++ s)) =
      headerLit ++ ('a' :: ("bc".data ++ (crlfcrlf ++ s))) := by
    rw [← List.cons_append,
      show ('C' : Char) :: "ontent-Length: abc".data =
        headerLit ++ ('a' :: "bc".data) from by decide]
    simp [List.append_assoc]
  rw [h1, reSearch, show tryMatchAt ('C' :: ("ontent-Length: abc".data ++ (crlfcrlf ++ s)))
      = none from by rw [h2]; exact tryMatchAt_nonDigit (by decide) _]
  simp only
  rw [reSearch_skip_no_C "ontent-Length: abc".data _ (by decide),
    reSearch_skip_no_C crlfcrlf _ (by decide)]

theorem decodeLoopF_mal_frame (g : Nat) (content rest : List Char) (acc : List JValue) :
    decodeLoopF (g + 1) (malHeader ++ (frame content ++ rest)) acc =
      match loads content with
      | some v => decodeLoopF g rest (acc ++ [v])
      | none => decodeLoopF g rest acc := by
  rw [decodeLoopF]
  have hsw : startsWithL inKey (malHeader ++ (frame content ++ rest)) = true := by
    rw [show malHeader = inKey ++ (' ' :: ("abc".data ++ crlfcrlf)) from by decide,
      List.append_assoc]
    exact startsWithL_self_append _ _
  rw [if_pos (containsSub_of_starts hsw), reSearch_mal, reSearch_frame content rest]
  simp only
  rw [if_pos (by simp)]
  rw [List.take_left, List.drop_left]

theorem decode_loop_mal_frame (content rest : List Char) (acc : List JValue) :
    decode_loop (malHeader ++ (frame content ++ rest)) acc =
      match loads content with
      | some v => decode_loop rest (acc ++ [v])
      | none => decode_loop rest acc := by
  unfold decode_loop
  rw [decodeLoopF_mal_frame]
  have hnd : 1 ≤ (natDigits content.length).length :=
    List.length_pos.mpr (natDigits_ne_nil _)
  have hlen : rest.length < (malHeader ++ (frame content ++ rest)).length := by
    simp [frame, malHeader]
    omega
  cases loads content with
  | none =>
    exact decodeLoopF_mono rest.length _ _ rest acc (le_refl _) hlen (by omega)
  | some v =>
    exact decodeLoopF_mono rest.length _ _ rest (acc ++ [v]) (le_refl _) hlen (by omega)

/-! ## Concrete messages used in witnesses and counterexamples -/

/-- A response object with id 1: `\x7b"id": 1, "result": "r1"\x7d`. -/
def respId1 : JValue :=
  .obj (.cons "id".data (.int 1) (.cons "result".data (.str "r1".data) .nil))

/-- A response object with id 2: `\x7b"id": 2, "result": "r2"\x7d`. -/
def respId2 : JValue :=
  .obj (.cons "id".data (.int 2) (.cons "result".data (.str "r2".data) .nil))

/-- A notification (no `"id"` key). -/
def notifMsg : JValue := .obj (.cons "method".data (.str "initialized".data) .nil)

/-- A buffer whose header differs from `Content-Length` only in letter case. -/
def lowerHeader : List Char := "content-length: 4".data ++ (crlfcrlf ++ "null".data)

/-! ## The claims -/

/-- C1: round-trip — feeding the bytes of `encode_lsp m`, in any chunking, to
the decode loop of `read_responses` yields exactly the one message `m` (deep
equality) and an empty remaining buffer. -/
theorem C1_roundtrip (m : JValue) (chunks : List (List Char))
    (h : chunks.flatten = encode_lsp m) :
    read_responses chunks = ([m], []) := by
  rw [read_responses_eq_join, h, decode_loop_encode_nil]
  simp

/-- C1 witness: the null message, delivered one character at a time. -/
theorem C1_roundtrip_witness :
    read_responses ((encode_lsp JValue.null).map (fun c => [c])) = ([JValue.null], []) :=
  C1_roundtrip JValue.null _ (by decide)

/-- C2: `encode_lsp m` is exactly `Content-Length: L` + `\r\n\r\n` + the JSON
body, where `L` is the UTF-8 byte length of the body (the body is pure ASCII
under `json.dumps`'s default `ensure_ascii=True`, so this coincides with the
character count that `len(content)` computes). -/
theorem C2_header_form (m : JValue) :
    encode_lsp m =
      headerLit ++ natDigits (utf8Len (dumps m)) ++ crlfcrlf ++ dumps m := by
  unfold encode_lsp frame
  rw [utf8Len_of_ascii (dumps m) (dumps_ascii m)]

/-- C3 (amended): a single waiter is matched strictly by id — the awaited
response is returned even when any number of non-matching messages precede it —
but each preceding message is permanently consumed from the shared queue, which
is why the original claim's two-waiter scenario fails (see the counterexample). -/
theorem C3_single_waiter (pre post : List (Option JValue)) (r : JValue) (idv : Int)
    (timeout : Nat)
    (hpre : ∀ x, some x ∈ pre → pyEqInt (jget x idKey) idv = false)
    (ht : pre.length < timeout)
    (hr : pyEqInt (jget r idKey) idv = true) :
    wait_for_response (pre ++ some r :: post) idv timeout = (some r, post) := by
  unfold wait_for_response
  exact wait_for_responseF_skip pre _ 0 timeout idv r post hpre (by omega)
    (by simp; omega) hr

/-- C3 witness: the waiter for id 1 receives the id-1 response even though the
id-2 response arrived first. -/
theorem C3_single_waiter_witness :
    wait_for_response [some respId2, some respId1] 1 30 = (some respId1, []) :=
  C3_single_waiter [some respId2] [] respId1 1 30
    (by intro x hx; simp at hx; subst hx; decide) (by decide) (by decide)

/-- C3 counterexample: with responses arriving out of order (id 2 then id 1),
the first waiter (id 1) gets its own response but silently consumes the id-2
response; the second waiter (id 2) then finds an empty queue and times out with
`None` — the claim's promise that each waiter receives the response carrying
its own id fails. -/
theorem C3_out_of_order_counterexample :
    (wait_for_response [some respId2, some respId1] 1 30).1 = some respId1 ∧
    (wait_for_response (wait_for_response [some respId2, some respId1] 1 30).2 2 30).1
      = none := by decide

/-- C4: malformed-frame resilience — a correctly framed but non-JSON body
between two valid frames is dropped, and both valid messages are decoded in
order with nothing left in the buffer. -/
theorem C4_malformed_body (m1 m2 : JValue) (bad : List Char) (h : loads bad = none) :
    decode_loop (encode_lsp m1 ++ (frame bad ++ encode_lsp m2)) [] = ([m1, m2], []) := by
  rw [decode_loop_encode, decode_loop_frame, h]
  simp only
  rw [decode_loop_encode_nil]
  simp

/-- C4 witness: the body `nope` is not valid JSON, and the two valid frames
around it still decode. -/
theorem C4_malformed_body_witness :
    decode_loop (encode_lsp JValue.null ++
        (frame "nope".data ++ encode_lsp (JValue.bool true))) []
      = ([JValue.null, JValue.bool true], []) :=
  C4_malformed_body JValue.null (JValue.bool true) "nope".data (by decide)

/-- C5: multi-frame order — decoding `encode_lsp m1 ++ encode_lsp m2`, under
any chunking of the bytes whatsoever, yields `[m1, m2]` in that order with an
empty remaining buffer. -/
theorem C5_order_chunking (m1 m2 : JValue) (chunks : List (List Char))
    (h : chunks.flatten = encode_lsp m1 ++ encode_lsp m2) :
    read_responses chunks = ([m1, m2], []) := by
  rw [read_responses_eq_join, h, decode_loop_encode, decode_loop_encode_nil]
  simp

/-- C5 witness: two messages delivered one character at a time. -/
theorem C5_order_chunking_witness :
    read_responses ((encode_lsp JValue.null ++ encode_lsp (JValue.bool false)).map
        (fun c => [c]))
      = ([JValue.null, JValue.bool false], []) :=
  C5_order_chunking JValue.null (JValue.bool false) _ (by decide)

/-- C6 (amended): a header whose `Content-Length` value is malformed is neither
discarded nor signalled — the regex simply never matches it, so its bytes stay
in the buffer until a later valid frame arrives, at which point the malformed
bytes are silently skipped over and the valid frame decodes normally. -/
theorem C6_silent_skip (m : JValue) (rest : List Char) (acc : List JValue) :
    decode_loop (malHeader ++ (encode_lsp m ++ rest)) acc =
      decode_loop rest (acc ++ [m]) := by
  unfold encode_lsp
  rw [decode_loop_mal_frame, loads_dumps]

/-- C6 counterexample: a malformed header alone is left in the buffer verbatim
(not discarded, no error emitted — the decode loop just stops), and once a
valid frame follows, the malformed bytes vanish silently rather than being
reported. -/
theorem C6_counterexample :
    decode_loop malHeader [] = ([], malHeader) ∧
    decode_loop (malHeader ++ encode_lsp JValue.null) [] = ([JValue.null], []) := by
  decide

/-- C7 (amended): header matching is exact and case-sensitive — any buffer not
containing the exact substring `Content-Length:` decodes nothing and is left
untouched, whatever case-variant headers it may contain. -/
theorem C7_exact_match_only (b : List Char) (acc : List JValue)
    (h : containsSub inKey b = false) :
    decode_loop b acc = (acc, b) := by
  unfold decode_loop
  rw [decodeLoopF, if_neg (by simp [h])]

/-- C7 witness: a complete, correctly framed message whose header is spelled in
lower case decodes to nothing. -/
theorem C7_exact_match_only_witness :
    decode_loop lowerHeader [] = ([], lowerHeader) :=
  C7_exact_match_only lowerHeader [] (by decide)

/-- C7 counterexample: the same framed body decodes under the exact spelling
`Content-Length:` but not under `content-length:` — matching is not
case-insensitive. -/
theorem C7_counterexample :
    decode_loop ("content-length: 4".data ++ (crlfcrlf ++ "null".data)) [] =
      ([], "content-length: 4".data ++ (crlfcrlf ++ "null".data)) ∧
    decode_loop ("Content-Length: 4".data ++ (crlfcrlf ++ "null".data)) [] =
      ([JValue.null], []) := by decide

/-- C8: timeout — against a queue schedule that never delivers a message whose
id matches, `wait_for_response` returns `None` (it does not suspend forever and
does not return another message). -/
theorem C8_timeout (sched : List (Option JValue)) (idv : Int) (timeout : Nat)
    (h : ∀ r, some r ∈ sched → pyEqInt (jget r idKey) idv = false) :
    (wait_for_response sched idv timeout).1 = none := by
  unfold wait_for_response
  exact wait_for_responseF_none _ _ _ _ sched h

/-- C8 witness: a stream delivering only a notification and an empty poll never
matches id 7, and the wait returns `None`. -/
theorem C8_timeout_witness : (wait_for_response [some notifMsg, none] 7 2).1 = none :=
  C8_timeout [some notifMsg, none] 7 2
    (by intro r hr; simp at hr; subst hr; decide)

/-- C9 (amended): `print_results` prints, per operation, only the avg/min/max
of the surviving samples (or a bare TIMEOUT/ERROR marker when none survive):
its output is a function of the surviving samples alone, so no failure count
appears in the report. -/
theorem C9_survivors_only (t1 t2 : List (Option Rat))
    (h : valid_times t1 = valid_times t2) :
    print_results_line t1 = print_results_line t2 := by
  unfold print_results_line
  rw [h]

/-- C9 witness: a run with one timeout and a run with none, sharing the same
surviving sample, print identical lines. -/
theorem C9_survivors_only_witness :
    print_results_line [some 1, none] = print_results_line [none, some 1] :=
  C9_survivors_only [some 1, none] [none, some 1] (by decide)

/-- C9 counterexample: two sample lists with different numbers of failed
(timed-out) trials produce the very same printed report — the harness reports
no failure count, refuting the claim that failures are counted. -/
theorem C9_no_fail_count :
    print_results_line [some 1] = print_results_line [some 1, none] ∧
    failCount [some 1] ≠ failCount [some 1, none] :=
  ⟨rfl, by decide⟩

/-- C10: `wait_for_response` permanently consumes every queued message whose id
differs from the awaited one — after it returns, only what followed the match
remains in the queue, and a later waiter whose id occurred only among the
consumed messages gets `None`. -/
theorem C10_consumes_nonmatching (pre post : List (Option JValue)) (r : JValue)
    (idv idv2 : Int) (timeout timeout2 : Nat)
    (hpre : ∀ x, some x ∈ pre → pyEqInt (jget x idKey) idv = false)
    (ht : pre.length < timeout)
    (hr : pyEqInt (jget r idKey) idv = true)
    (hpost : ∀ x, some x ∈ post → pyEqInt (jget x idKey) idv2 = false) :
    (wait_for_response (pre ++ some r :: post) idv timeout).2 = post ∧
    (wait_for_response (wait_for_response (pre ++ some r :: post) idv timeout).2
      idv2 timeout2).1 = none := by
  have h1 : wait_for_response (pre ++ some r :: post) idv timeout = (some r, post) := by
    unfold wait_for_response
    exact wait_for_responseF_skip pre _ 0 timeout idv r post hpre (by omega)
      (by simp; omega) hr
  refine ⟨by rw [h1], ?_⟩
  rw [h1]
  unfold wait_for_response
  exact wait_for_responseF_none _ _ _ _ post hpost

/-- C10 witness: the id-2 response and a notification sitting in front of the
id-1 response are consumed; the later waiter for id 2 gets `None`. -/
theorem C10_consumes_nonmatching_witness :
    (wait_for_response [some respId2, some notifMsg, some respId1] 1 30).2 = [] ∧
    (wait_for_response
      (wait_for_response [some respId2, some notifMsg, some respId1] 1 30).2 2 30).1
      = none :=
  C10_consumes_nonmatching [some respId2, some notifMsg] [] respId1 1 2 30 30
    (by intro x hx; simp at hx; rcases hx with rfl | rfl <;> decide) (by decide)
    (by decide) (by intro x hx; simp at hx)
